/-
Verification of the judging core of the Solve contest server.

This file gives a shallow embedding of the parts of the code that the
checked claims are about, and proves (or refutes) each claim against
that embedding:

  * the whitespace-stripping output comparator (`compareFiles` in the
    invoker package);
  * the per-task verdict aggregation loop of `Invoker.onJudgeSolution`;
  * `Task.SetState` / `Task.ScanState` (`models/task.go`);
  * `TaskStore.PopQueued` (`models/task.go`);
  * the compile-error handling of the two judge pipelines
    (`Invoker.onJudgeSolution` and `judgeSolutionTask.executeImpl`);
  * the report file written by the `safeexec` sandbox runner (`main.c`);
  * `SessionStore.GetByCookie` (`models/session.go`);
  * the gap-tolerant event consumer (`db/event_consumer.go`).

Go `int64` values are modelled as `Int` (no arithmetic in the modelled
code comes anywhere near the 64-bit boundary); Go byte strings are
modelled as `List Char`, Go maps as association lists together with an
explicit iteration order where the code iterates over a map.
-/
import Mathlib

namespace Solve

/-! ## The default output comparator

`compareFiles` (invoker package) reads both files, strips every
occurrence of `"\n"`, `"\r"`, `"\t"` and `" "` from both byte strings
with `strings.ReplaceAll`, and compares the results for equality. We
model the byte strings and the comparison verdict; file I/O and the
`expected %q, got %q` message are not needed by the claims. -/

/-- `strings.ReplaceAll(s, string(c), "")`: remove every occurrence of
the character `c`. -/
def replaceAllEmpty (c : Char) (s : List Char) : List Char :=
  s.filter (fun x => x ≠ c)

/-- The stripping pipeline of `compareFiles`: remove `'\n'`, `'\r'`,
`'\t'` and `' '`, in the order the code applies `strings.ReplaceAll`. -/
def stripWhitespace (s : List Char) : List Char :=
  replaceAllEmpty ' '
    (replaceAllEmpty '\t' (replaceAllEmpty '\r' (replaceAllEmpty '\n' s)))

/-- The comparison verdict of `compareFiles`: the stripped output equals
the stripped answer. -/
def compareOutputs (output answer : List Char) : Bool :=
  stripWhitespace output = stripWhitespace answer

/-- The four characters stripped by the default comparator. -/
def wsChars : List Char := ['\n', '\r', '\t', ' ']

/-! ## Verdicts and the aggregation loop

Verdict values from `models` (spec §3, Report). -/

inductive Verdict where
  | accepted
  | rejected
  | wrongAnswer
  | runtimeError
  | timeLimitExceeded
  | memoryLimitExceeded
  | compilationError
  | partiallyAccepted
  | failedVerdict
  | queuedVerdict
  | runningVerdict
deriving DecidableEq, Repr

/-- The aggregation loop at the end of `Invoker.onJudgeSolution`:
start from `Accepted`; on the first test whose verdict is not
`Accepted`, set `PartiallyAccepted` and break. -/
def aggregateVerdict : List Verdict → Verdict
  | [] => .accepted
  | v :: vs => if v ≠ Verdict.accepted then .partiallyAccepted else aggregateVerdict vs

/-- Severity order of the claimed tie-break:
`compilation_error > runtime_error > time_limit_exceeded >
memory_limit_exceeded > wrong_answer > rejected`. Higher is more severe. -/
def verdictSeverity : Verdict → Nat
  | .compilationError => 6
  | .runtimeError => 5
  | .timeLimitExceeded => 4
  | .memoryLimitExceeded => 3
  | .wrongAnswer => 2
  | .rejected => 1
  | _ => 0

/-- The aggregation procedure described by the claim (spec §4.G
WriteReport), stated as a definition of its own so that it can be
compared with `aggregateVerdict`, the one the code implements: all
accepted ⇒ accepted; some but not all accepted ⇒ partially accepted;
otherwise the most common non-accepted verdict, ties broken by
severity. -/
def claimedAggregateVerdict (vs : List Verdict) : Verdict :=
  if vs.all (fun v => v = Verdict.accepted) then .accepted
  else if vs.any (fun v => v = Verdict.accepted) then .partiallyAccepted
  else
    let candidates : List Verdict :=
      [.compilationError, .runtimeError, .timeLimitExceeded,
       .memoryLimitExceeded, .wrongAnswer, .rejected]
    let better (a b : Verdict) : Bool :=
      vs.count b > vs.count a ∨
        (vs.count b = vs.count a ∧ verdictSeverity a < verdictSeverity b)
    candidates.foldl (fun acc v => if better acc v then v else acc) .rejected

/-! ## Decimal rendering and parsing

`sprintf("%ld", v)` / `sprintf("%d", v)` rendering and the digit parsing
used by `strconv.ParseInt` and `encoding/json`. -/

/-- The decimal digit character for `n < 10` (as produced by `sprintf`
and `strconv`/`encoding/json`). -/
def digitChar : Nat → Char
  | 0 => '0' | 1 => '1' | 2 => '2' | 3 => '3' | 4 => '4'
  | 5 => '5' | 6 => '6' | 7 => '7' | 8 => '8' | _ => '9'

/-- Decimal rendering of a natural number, most significant digit
first. -/
def natDecChars (n : Nat) : List Char :=
  if _h : n < 10 then [digitChar n]
  else natDecChars (n / 10) ++ [digitChar (n % 10)]
termination_by n
decreasing_by exact Nat.div_lt_self (by omega) (by omega)

/-- Decimal rendering of an integer (`%ld`): a `'-'` sign followed by
the digits for negative values. -/
def intDecChars (i : Int) : List Char :=
  if i < 0 then '-' :: natDecChars i.natAbs else natDecChars i.toNat

/-- Decimal digit test (`'0' ≤ c ≤ '9'`). -/
def isDigitB (c : Char) : Bool :=
  decide (48 ≤ c.toNat) && decide (c.toNat ≤ 57)

/-- The numeric value of a list of digit characters, most significant
first (the accumulator loop shared by `strconv` and our JSON parser). -/
def digitsToNat (l : List Char) : Nat :=
  l.foldl (fun a c => a * 10 + (c.toNat - 48)) 0

/-- Digit-sequence parser: all characters must be decimal digits and
the sequence must be non-empty, as in `strconv.ParseUint` with base
10. -/
def parseDigits (l : List Char) : Option Nat :=
  if l = [] then none
  else if l.all isDigitB then some (digitsToNat l) else none

/-- `strconv.ParseInt(s, 10, 60)`: an optional single `'+'`/`'-'` sign
followed by a non-empty digit string; values outside the 60-bit two's
complement range `[-2^59, 2^59-1]` are a range error. -/
def parseInt60 (s : List Char) : Option Int :=
  match s with
  | [] => none
  | c :: rest =>
    let (neg, digits) :=
      if c = '-' then (true, rest)
      else if c = '+' then (false, rest)
      else (false, s)
    match parseDigits digits with
    | none => none
    | some n =>
      let v : Int := if neg then -(n : Int) else (n : Int)
      if -(2 ^ 59) ≤ v ∧ v ≤ 2 ^ 59 - 1 then some v else none

/-! ## Tasks (`models/task.go`) -/

/-- `TaskStatus` constants (`models/task.go`). -/
def queuedStatus : Int := 0

def runningStatus : Int := 1

def succeededStatus : Int := 2

def failedStatus : Int := 3

/-- `TaskKind` constant `JudgeSolutionTask` (`models/task.go`). -/
def judgeSolutionKind : Int := 1

/-- `models.Task` (the opaque JSON columns `Config` and `State` are byte
strings). -/
structure GoTask where
  ID : Int
  Status : Int
  Kind : Int
  Config : List Char
  State : List Char
  ExpireTime : Int
deriving DecidableEq, Repr

/-- `models.JudgeSolutionTaskConfig` (`{"solution_id": <int64>}`). -/
structure JudgeSolutionTaskConfig where
  solutionID : Int
deriving DecidableEq, Repr

/-- Backslash-free character constants for JSON punctuation. -/
def braceOpen : Char := Char.ofNat 123

def braceClose : Char := Char.ofNat 125

def quoteChar : Char := Char.ofNat 34

/-- The fixed prefix of the marshalled config. -/
def jsonConfigHead : List Char :=
  braceOpen :: quoteChar :: "solution_id".toList ++ [quoteChar, ':']

/-- `json.Marshal` of a `JudgeSolutionTaskConfig` value; the canonical
output is the object with the single key `solution_id`. -/
def marshalJudgeConfig (c : JudgeSolutionTaskConfig) : List Char :=
  jsonConfigHead ++ intDecChars c.solutionID ++ [braceClose]

/-- Drop an exact expected prefix, or fail. -/
def dropExactList : List Char → List Char → Option (List Char)
  | [], s => some s
  | _ :: _, [] => none
  | p :: ps, c :: cs => if c = p then dropExactList ps cs else none

/-- The numeric payload parser of the canonical-form unmarshal: an
optional minus sign, a non-empty digit run, then the closing brace. -/
def parseSignedNumber (rest : List Char) : Option Int :=
  let rest' := if rest.headD ' ' = '-' then rest.tail else rest
  let ds := rest'.takeWhile isDigitB
  let tail := rest'.dropWhile isDigitB
  if ds = [] then none
  else if tail = [braceClose] then
    some (if rest.headD ' ' = '-' then -(digitsToNat ds : Int)
          else (digitsToNat ds : Int))
  else none

/-- `json.Unmarshal` of bytes into `JudgeSolutionTaskConfig`, restricted
to the canonical form produced by `json.Marshal` (the only form the
code ever stores). -/
def unmarshalJudgeConfig (s : List Char) : Option JudgeSolutionTaskConfig :=
  match dropExactList jsonConfigHead s with
  | none => none
  | some rest => (parseSignedNumber rest).map (fun v => ⟨v⟩)

/-- `Task.SetState`: marshal the state and store the bytes — into the
`Config` field, as the code does (`o.Config = raw`). -/
def GoTask.SetState (o : GoTask) (st : JudgeSolutionTaskConfig) : GoTask :=
  { o with Config := marshalJudgeConfig st }

/-- `Task.ScanState`: unmarshal — from the `Config` field, as the code
does (`json.Unmarshal(o.Config, state)`). -/
def GoTask.ScanState (o : GoTask) : Option JudgeSolutionTaskConfig :=
  unmarshalJudgeConfig o.Config

/-- `Task.SetConfig`: marshal the config into the `Config` field. -/
def GoTask.SetConfig (o : GoTask) (c : JudgeSolutionTaskConfig) : GoTask :=
  { o with Config := marshalJudgeConfig c }

/-- `Task.ScanConfig`: unmarshal from the `Config` field. -/
def GoTask.ScanConfig (o : GoTask) : Option JudgeSolutionTaskConfig :=
  unmarshalJudgeConfig o.Config

/-! ## `TaskStore.PopQueued`

The store keeps `tasks : map[int64]Task` and the index
`byStatus[Queued] : set of ids` (`index` is declared in
`models/base.go`, outside the provided sources; modelled from the spec:
"Indexes are maintained as `key → set<id>`"). `PopQueued` iterates
`for id := range s.byStatus[Queued]` — a Go map iteration, whose order
is unspecified — and returns the first task that passes the kind
filter, after setting it running with a five-second lease. We model
the map as an association list and the iteration order as an explicit
argument. -/

/-- Go map lookup in an association list (at most one binding per
key). -/
def lookupTask (tasks : List (Int × GoTask)) (id : Int) : Option GoTask :=
  match tasks.find? (fun p => p.1 = id) with
  | none => none
  | some p => some p.2

/-- `TaskStore.PopQueued`, given the iteration order `order` of
`byStatus[Queued]`, the `tasks` map, the kind `filter` and the current
time `now`: the first task found in iteration order is cloned, set
`Running` with `expire_time = now + 5`, updated and returned; if the
iteration finds nothing, `sql.ErrNoRows` (here `none`). -/
def popQueued (order : List Int) (tasks : List (Int × GoTask))
    (filter : Int → Bool) (now : Int) : Option GoTask :=
  match order with
  | [] => none
  | id :: rest =>
    match lookupTask tasks id with
    | some task =>
      if filter task.Kind then
        some { task with Status := runningStatus, ExpireTime := now + 5 }
      else popQueued rest tasks filter now
    | none => popQueued rest tasks filter now

/-- The invariant maintained for `byStatus[Queued]` by the three apply
hooks: the iteration order enumerates exactly the ids of tasks whose
status is `Queued`. -/
def queuedIndexOk (order : List Int) (tasks : List (Int × GoTask)) : Prop :=
  ∀ id ∈ order, ∃ t, lookupTask tasks id = some t ∧ t.Status = queuedStatus

/-! ## The two judge pipelines (claim C7)

External effects (downloads, extraction, the sandbox, the database
update) are modelled by their outcomes, passed as arguments; the
control flow joining them is the code's. Error values are opaque
(`Nat`). -/

/-- `models.TestReport` (modelled from the spec: `models/solution.go`
is not among the provided sources; fields as used by
`Invoker.onJudgeSolution`). -/
structure TestReport where
  Verdict : Verdict
  CheckLog : List Char
  Input : List Char
  Output : List Char
deriving DecidableEq, Repr

/-- `models.CompileReport` as used by `judgeSolutionTask`. -/
structure CompileReport where
  Log : List Char
deriving DecidableEq, Repr

/-- `models.SolutionReport` (modelled from the spec and both usage
sites: the older pipeline writes `CompileLog` and `Tests`, the newer
one writes `Compile`). -/
structure SolutionReport where
  Verdict : Verdict
  CompileLog : List Char
  Compile : CompileReport
  Tests : List TestReport
deriving DecidableEq, Repr

/-- The report value both pipelines start from:
`models.SolutionReport{Verdict: models.Rejected}`. -/
def initialReport : SolutionReport :=
  { Verdict := .rejected, CompileLog := [], Compile := ⟨[]⟩, Tests := [] }

/-- Outcome of the container run inside
`judgeSolutionTask.compileSolution`: a fatal error from
create/start/wait, an `*exec.ExitError` from `Wait`, or a normal exit
with an exit code. -/
inductive CompileOutcome where
  | fatal (e : Nat)
  | exitErr (log : List Char)
  | finished (exitCode : Int) (log : List Char)
deriving DecidableEq, Repr

/-- `judgeSolutionTask.compileSolution`: returns the updated report,
the `ok` flag and the error, mirroring the code's three paths. -/
def compileSolution (c : CompileOutcome) (report : SolutionReport) :
    SolutionReport × Bool × Option Nat :=
  match c with
  | .fatal e => (report, false, some e)
  | .exitErr log => ({ report with Compile := ⟨log⟩ }, false, none)
  | .finished code log =>
    let r := { report with Compile := ⟨log⟩ }
    if code ≠ 0 then (r, false, none) else (r, true, none)

/-- `judgeSolutionTask.executeImpl`: prepare problem, compiler and
solution, compile, set `compilation_error` when the compile was not
ok, then `SetReport` + `Solutions.Update`. Returns the report passed
to `SetReport` (`none` when the function failed before reaching it)
and the function's error result. -/
def executeImpl (prepProblem prepCompiler prepSolution : Option Nat)
    (compile : CompileOutcome) (updateErr : Option Nat) :
    Option SolutionReport × Option Nat :=
  match prepProblem with
  | some e => (none, some e)
  | none =>
    match prepCompiler with
    | some e => (none, some e)
    | none =>
      match prepSolution with
      | some e => (none, some e)
      | none =>
        match compileSolution compile initialReport with
        | (_, _, some e) => (none, some e)
        | (r, ok, none) =>
          let r' := if ok then r else { r with Verdict := .compilationError }
          (some r', updateErr)

/-- `Invoker.onJudgeSolution` (the older pipeline): `fetchErr` covers
the failures before the deferred report write is installed (scan
config, fetch solution, fetch problem); `setupErr` the failures after
it but before the compile (temp dir, downloads, extraction);
`compileErr` is `compiler.Compile`'s result; `parseErr` is
`polygon.ReadProblem`'s; `tests` are the test reports accumulated by
the test loop. Returns the report persisted by the deferred function
(`none` when control never reached it) and the error result. -/
def onJudgeSolution (fetchErr setupErr compileErr : Option Nat)
    (compileLog : List Char) (parseErr : Option Nat)
    (tests : List TestReport) : Option SolutionReport × Option Nat :=
  match fetchErr with
  | some e => (none, some e)
  | none =>
    match setupErr with
    | some e => (some initialReport, some e)
    | none =>
      match compileErr with
      | some e =>
        (some { initialReport with
                  Verdict := .compilationError, CompileLog := compileLog },
         some e)
      | none =>
        match parseErr with
        | some e =>
          (some { initialReport with CompileLog := compileLog }, some e)
        | none =>
          (some { Verdict := aggregateVerdict (tests.map TestReport.Verdict),
                  CompileLog := compileLog, Compile := ⟨[]⟩, Tests := tests },
           none)

/-- `Invoker.runDaemonTick`: the task ends `succeeded` exactly when the
handler returned no error, else `failed`. -/
def taskStatusAfter (taskErr : Option Nat) : Int :=
  if taskErr = none then succeededStatus else failedStatus

/-! ## The safeexec report file (claim C8) -/

/-- Termination state of the sandboxed child as seen by `waitpid`. -/
inductive ChildStatus where
  | exited (code : Int)
  | signaled
deriving DecidableEq, Repr

/-- `WIFEXITED(status) ? WEXITSTATUS(status) : -1`. -/
def reportedExitCode : ChildStatus → Int
  | .exited c => c
  | .signaled => -1

/-- The monitor loop's memory accumulator: starting from `0`, each
sampled `memory.current` value replaces the maximum if it is larger
(`if (currentMemory > memory) memory = currentMemory`). -/
def monitorMemory (samples : List Int) : Int :=
  samples.foldl (fun m c => if c > m then c else m) 0

/-- One `sprintf`+`write` of the report: `<label> <value>\n`. -/
def reportLine (label : List Char) (v : Int) : List Char :=
  label ++ ' ' :: (intDecChars v ++ ['\n'])

/-- The report file written at the end of `main` when `--report` was
given (`strlen(ctx->report) != 0`): the three lines for the elapsed
time, the maximal sampled memory and the exit code. -/
def safeexecReportFile (reportPath : List Char) (timeMs : Int)
    (samples : List Int) (st : ChildStatus) : Option (List Char) :=
  if reportPath = [] then none
  else some
    (reportLine "time".toList timeMs ++
     reportLine "memory".toList (monitorMemory samples) ++
     reportLine "exit_code".toList (reportedExitCode st))

/-! ## `SessionStore.GetByCookie` (claim C10) -/

/-- `models.Session`. -/
structure GoSession where
  ID : Int
  AccountID : Int
  Secret : List Char
  CreateTime : Int
  ExpireTime : Int
deriving DecidableEq, Repr

/-- Go map lookup in `s.sessions`. -/
def lookupSession (sessions : List (Int × GoSession)) (id : Int) :
    Option GoSession :=
  match sessions.find? (fun p => p.1 = id) with
  | none => none
  | some p => some p.2

/-- Split at the first `'_'`, when there is one. -/
def splitOnceUnderscore : List Char → Option (List Char × List Char)
  | [] => none
  | c :: cs =>
    if c = '_' then some ([], cs)
    else
      match splitOnceUnderscore cs with
      | none => none
      | some (a, b) => some (c :: a, b)

/-- `strings.SplitN(cookie, "_", 2)`: one part when there is no
underscore, else the part before the first underscore and the rest. -/
def splitN2Underscore (s : List Char) : List (List Char) :=
  match splitOnceUnderscore s with
  | none => [s]
  | some (a, b) => [a, b]

/-- Result of `GetByCookie`: a session, a `strconv` parse error,
`sql.ErrNoRows`, or a Go runtime panic (index out of range). -/
inductive CookieResult where
  | ok (s : GoSession)
  | errParse
  | errNoRows
  | panicked
deriving DecidableEq, Repr

/-- `SessionStore.GetByCookie`: split the cookie on the first
underscore, parse the first part with `strconv.ParseInt(_, 10, 60)`,
look the id up, then compare `session.Secret != parts[1]` — an
expression whose index is evaluated (and out of range when the cookie
holds no underscore) whenever the lookup succeeded, because `!ok ||`
short-circuits only on a failed lookup. -/
def getByCookie (sessions : List (Int × GoSession)) (cookie : List Char) :
    CookieResult :=
  let parts := splitN2Underscore cookie
  match parseInt60 (parts.headD []) with
  | none => .errParse
  | some id =>
    match lookupSession sessions id with
    | none => .errNoRows
    | some session =>
      match parts with
      | _ :: secretPart :: _ =>
        if session.Secret ≠ secretPart then .errNoRows else .ok session
      | _ => .panicked

/-! ## The gap-tolerant event consumer (`db/event_consumer.go`)

`EventRange` itself is declared in `db/event.go`, outside the provided
sources; modelled from the spec: a half-open range `[Begin, End)` of
event IDs, where `End = 0` marks the final unbounded range
(`NewEventConsumer` creates `{Begin: beginID}` with a zero `End`, and
the spec describes the initial state as `[beginID, ∞)`). Event IDs
are database-allocated and start at `1`. -/

structure EventRange where
  Begin : Int
  End : Int
deriving DecidableEq, Repr

/-- Modelled from the spec: membership in a half-open range, with
`End = 0` meaning "no upper bound" (the usage in the repository's
`mockEventStore.LoadEvents` and `removeEmptyRanges` fixes this
reading). -/
def EventRange.containsId (r : EventRange) (id : Int) : Bool :=
  decide (r.Begin ≤ id) && (decide (r.End = 0) || decide (id < r.End))

/-- An event ID is still unseen iff some tracked range contains it. -/
def inRanges (ranges : List EventRange) (id : Int) : Bool :=
  ranges.any (fun r => r.containsId id)

/-- `eventGapSkipWindow` (`db/event_consumer.go`). -/
def eventGapSkipWindow : Nat := 5000

/-- `eventConsumer.removeEmptyRanges`: compact away ranges with
`Begin == End`, then keep only the last `eventGapSkipWindow` ranges. -/
def removeEmptyRanges (ranges : List EventRange) : List EventRange :=
  let compacted := ranges.filter (fun r => r.Begin ≠ r.End)
  if eventGapSkipWindow < compacted.length then
    compacted.drop (compacted.length - eventGapSkipWindow)
  else compacted

/-- How one `ConsumeEvents` call ends: normally, with the callback's
error, or with the `"invalid event ID"` corruption error. -/
inductive ConsumeResult where
  | ok
  | fnError
  | invalidEvent
deriving DecidableEq, Repr

/-- The `for it < len(c.ranges) && !c.ranges[it].contains(...)` scan:
move ranges from the not-yet-scanned part `rest` to the scanned part
`passed` until one contains `id` (`passed ++ rest` is `c.ranges`, and
`length passed` is `it`). -/
def skipRanges (id : Int) (passed rest : List EventRange) :
    List EventRange × List EventRange :=
  match rest with
  | [] => (passed, [])
  | r :: rs =>
    if r.containsId id then (passed, r :: rs)
    else skipRanges id (passed ++ [r]) rs

/-- The in-place update of the range found for a delivered event:
either `ranges[it].Begin++`, or the split into `[Begin, id)` and
`[id+1, End)`. -/
def stepRange (id : Int) (r : EventRange) : List EventRange :=
  if id = r.Begin then [{ r with Begin := r.Begin + 1 }]
  else [{ r with End := id }, { Begin := id + 1, End := r.End }]

/-- The event loop of `eventConsumer.ConsumeEvents`: for each loaded
event, scan for its range (no range ⇒ the corruption error, without
calling `fn`), call `fn` (an error aborts with the ranges as mutated
so far), then advance or split the range. The delivery log records
each id passed to `fn` together with `fn`'s verdict. -/
def consumeLoop (fn : Int → Bool) :
    List Int → List EventRange → List EventRange →
    List (Int × Bool) × List EventRange × ConsumeResult
  | [], passed, rest => ([], passed ++ rest, .ok)
  | id :: evs, passed, rest =>
    match skipRanges id passed rest with
    | (p, []) => ([], p, .invalidEvent)
    | (p, r :: rs) =>
      if fn id then
        let out := consumeLoop fn evs p (stepRange id r ++ rs)
        ((id, true) :: out.1, out.2)
      else ([(id, false)], p ++ r :: rs, .fnError)

/-- Modelled from the spec: `LoadEvents` streams the stored events
whose IDs fall into one of the supplied ranges, ordered by event ID
(§4.A; the repository's `mockEventStore.LoadEvents` does the same). -/
def loadEvents (store : List Int) (ranges : List EventRange) : List Int :=
  List.insertionSort (fun a b => a ≤ b)
    (store.filter (fun id => inRanges ranges id))

/-- `eventConsumer.ConsumeEvents` over one transaction: load the
events intersecting the current ranges, run the event loop, and drop
empty ranges only on the normal-completion path (the code's early
`return`s skip `removeEmptyRanges`). -/
def consumeEvents (store : List Int) (fn : Int → Bool)
    (ranges : List EventRange) :
    List (Int × Bool) × List EventRange × ConsumeResult :=
  match consumeLoop fn (loadEvents store ranges) [] ranges with
  | (ds, rgs, .ok) => (ds, removeEmptyRanges rgs, .ok)
  | out => out

/-- `NewEventConsumer`: a single range `{Begin: beginID}` (zero
`End`). -/
def newEventConsumer (beginID : Int) : List EventRange :=
  [{ Begin := beginID, End := 0 }]

/-- `eventConsumer.BeginEventID`: `c.ranges[0].Begin`. -/
def beginEventID (ranges : List EventRange) : Int :=
  (ranges.headD { Begin := 0, End := 0 }).Begin

/-- A sequence of `ConsumeEvents` calls on one consumer, each with the
store contents seen by its transaction and its callback; returns the
concatenated delivery log and the final ranges. -/
def runConsumer :
    List (List Int × (Int → Bool)) → List EventRange →
    List (Int × Bool) × List EventRange
  | [], st => ([], st)
  | (store, fn) :: calls, st =>
    let out := consumeEvents store fn st
    let rest := runConsumer calls out.2.1
    (out.1 ++ rest.1, rest.2)

/-- A queued judge-solution task with the given id (used by concrete
instances). -/
def sampleQueuedTask (id : Int) : GoTask :=
  ⟨id, queuedStatus, judgeSolutionKind, [], [], 0⟩

/-- A running judge-solution task with the given id and lease expiry
(used by concrete instances). -/
def sampleRunningTask (id expire : Int) : GoTask :=
  ⟨id, runningStatus, judgeSolutionKind, [], [], expire⟩

/-- Eligibility as `PopQueued`'s loop body tests it: the id resolves in
the task map and the task's kind passes the filter. -/
def eligibleTask (tasks : List (Int × GoTask)) (filter : Int → Bool)
    (id : Int) : Bool :=
  match lookupTask tasks id with
  | some t => filter t.Kind
  | none => false

/-- The well-formedness invariant of a consumer's range list, relative
to a lower bound `lo` on all `Begin` fields: ranges are ordered, the
final range is the unbounded one (`End = 0`), every interior range is
(possibly empty but) bounded, and every `Begin` is at least `1`. -/
inductive RangeInv : Int → List EventRange → Prop where
  | last (lo B : Int) (h1 : 1 ≤ B) (h2 : lo ≤ B) :
      RangeInv lo [{ Begin := B, End := 0 }]
  | cons (lo B E : Int) (rs : List EventRange) (h1 : 1 ≤ B) (h2 : lo ≤ B)
      (h3 : B ≤ E) (tail : RangeInv E rs) :
      RangeInv lo ({ Begin := B, End := E } :: rs)

/-! # Theorems -/

/-! ## Whitespace-stripping comparator (claim C6) -/

theorem stripWhitespace_append (a b : List Char) :
    stripWhitespace (a ++ b) = stripWhitespace a ++ stripWhitespace b := by
  simp [stripWhitespace, replaceAllEmpty, List.filter_append]

theorem stripWhitespace_ws (c : Char) (h : c ∈ wsChars) :
    stripWhitespace [c] = [] := by
  have h' : c = '\n' ∨ c = '\r' ∨ c = '\t' ∨ c = ' ' := by
    simpa [wsChars] using h
  rcases h' with rfl | rfl | rfl | rfl <;> rfl

theorem stripWhitespace_insert (x y : List Char) (c : Char)
    (h : c ∈ wsChars) :
    stripWhitespace (x ++ c :: y) = stripWhitespace (x ++ y) := by
  have h1 : x ++ c :: y = x ++ [c] ++ y := by simp
  rw [h1, stripWhitespace_append, stripWhitespace_append,
    stripWhitespace_append, stripWhitespace_ws c h]
  simp

/-- Claim C6: the default comparator — strip `'\n'`, `'\r'`, `'\t'` and
`' '` from both byte strings and compare — is reflexive, symmetric and
transitive, and inserting (equivalently, removing) a whitespace
character at any position of either input leaves the verdict
unchanged. -/
theorem comparator_equivalence_whitespace_invariance :
    (∀ a, compareOutputs a a = true) ∧
    (∀ a b, compareOutputs a b = compareOutputs b a) ∧
    (∀ a b c, compareOutputs a b = true → compareOutputs b c = true →
      compareOutputs a c = true) ∧
    (∀ x y b c, c ∈ wsChars →
      compareOutputs (x ++ c :: y) b = compareOutputs (x ++ y) b) ∧
    (∀ x y a c, c ∈ wsChars →
      compareOutputs a (x ++ c :: y) = compareOutputs a (x ++ y)) := by
  refine ⟨?_, ?_, ?_, ?_, ?_⟩
  · intro a; simp [compareOutputs]
  · intro a b
    simp only [compareOutputs, decide_eq_decide]
    exact ⟨Eq.symm, Eq.symm⟩
  · intro a b c h1 h2
    simp only [compareOutputs, decide_eq_true_eq] at h1 h2 ⊢
    exact h1.trans h2
  · intro x y b c h; simp [compareOutputs, stripWhitespace_insert x y c h]
  · intro x y a c h; simp [compareOutputs, stripWhitespace_insert x y c h]

/-- Witness for C6: concrete instances of the hypotheses-bearing
conjuncts. -/
theorem comparator_equivalence_whitespace_invariance_witness :
    compareOutputs ("1 2".toList ++ '\n' :: "3".toList)
      ("1 2".toList ++ "3".toList) = true ∧
    (compareOutputs "12".toList "1 2".toList = true →
      compareOutputs "1 2".toList "1\t2".toList = true →
      compareOutputs "12".toList "1\t2".toList = true) := by
  constructor
  · rw [comparator_equivalence_whitespace_invariance.2.2.2.1
      "1 2".toList "3".toList ("1 2".toList ++ "3".toList) '\n' (by decide)]
    exact comparator_equivalence_whitespace_invariance.1 _
  · exact comparator_equivalence_whitespace_invariance.2.2.1 _ _ _

/-! ## Verdict aggregation (claim C2) -/

/-- Counterexample to claim C2: for a single `wrong_answer` test the
claimed aggregation yields `wrong_answer` (the most common
non-accepted verdict), but the loop in `Invoker.onJudgeSolution`
yields `partially_accepted`. -/
theorem judge_verdict_aggregation_counterexample :
    aggregateVerdict [Verdict.wrongAnswer] = Verdict.partiallyAccepted ∧
    claimedAggregateVerdict [Verdict.wrongAnswer] = Verdict.wrongAnswer ∧
    aggregateVerdict [Verdict.wrongAnswer] ≠
      claimedAggregateVerdict [Verdict.wrongAnswer] := by
  refine ⟨rfl, by decide, by decide⟩

/-- Amended claim C2: the aggregation loop yields `accepted` when every
test verdict is `accepted` (in particular for an empty test list), and
`partially_accepted` as soon as any test verdict differs from
`accepted`; no most-common or severity-based selection exists. -/
theorem judge_verdict_aggregation_actual (vs : List Verdict) :
    ((∀ v ∈ vs, v = Verdict.accepted) → aggregateVerdict vs = .accepted) ∧
    ((∃ v ∈ vs, v ≠ Verdict.accepted) →
      aggregateVerdict vs = .partiallyAccepted) := by
  induction vs with
  | nil => exact ⟨fun _ => rfl, by rintro ⟨v, hv, _⟩; cases hv⟩
  | cons v vs ih =>
    constructor
    · intro h
      have hv : v = Verdict.accepted := h v (by simp)
      simp only [aggregateVerdict, hv, ne_eq, not_true_eq_false, if_false]
      exact ih.1 fun w hw => h w (by simp [hw])
    · rintro ⟨w, hw, hne⟩
      rcases List.mem_cons.mp hw with rfl | hmem
      · simp [aggregateVerdict, hne]
      · by_cases hv : v = Verdict.accepted
        · simp only [aggregateVerdict, hv, ne_eq, not_true_eq_false, if_false]
          exact ih.2 ⟨w, hmem, hne⟩
        · simp [aggregateVerdict, hv]

/-- Witness for C2 (amended): both branches at concrete inputs. -/
theorem judge_verdict_aggregation_actual_witness :
    aggregateVerdict [Verdict.accepted, Verdict.accepted] = .accepted ∧
    aggregateVerdict [Verdict.accepted, Verdict.wrongAnswer] =
      .partiallyAccepted :=
  ⟨(judge_verdict_aggregation_actual _).1 (by decide),
   (judge_verdict_aggregation_actual _).2 (by decide)⟩


/-! ## `TaskStore.PopQueued` (claims C3 and C4) -/

/-- Counterexample to claim C3: a store holding exactly one task, in
`running` state with `expire_time = 50` strictly below `now = 100`
(an expired lease); the `byStatus[Queued]` index is empty, so
`PopQueued` returns `sql.ErrNoRows` instead of re-leasing the task. -/
theorem pop_queued_expired_lease_counterexample :
    popQueued [] [(1, sampleRunningTask 1 50)] (fun _ => true) 100 = none ∧
    queuedIndexOk [] [(1, sampleRunningTask 1 50)] ∧
    (sampleRunningTask 1 50).ExpireTime < 100 ∧
    (sampleRunningTask 1 50).Status = runningStatus ∧
    runningStatus ≠ queuedStatus := by
  refine ⟨rfl, ?_, by norm_num [sampleRunningTask], rfl, by decide⟩
  intro id h
  cases h

/-- Amended claim C3: `PopQueued` iterates only the `byStatus[Queued]`
index, so every task it returns originates from a task whose status
was `queued`; a `running` task — expired lease or not — is never
eligible. -/
theorem pop_queued_only_queued_eligible (order : List Int)
    (tasks : List (Int × GoTask)) (filter : Int → Bool) (now : Int)
    (t : GoTask) (hidx : queuedIndexOk order tasks)
    (h : popQueued order tasks filter now = some t) :
    ∃ id t₀, lookupTask tasks id = some t₀ ∧ t₀.Status = queuedStatus ∧
      filter t₀.Kind = true ∧
      t = { t₀ with Status := runningStatus, ExpireTime := now + 5 } := by
  induction order with
  | nil => cases h
  | cons id rest ih =>
    have hidx' : queuedIndexOk rest tasks := by
      intro j hj; exact hidx j (by simp [hj])
    simp only [popQueued] at h
    rcases hlook : lookupTask tasks id with _ | t₀ <;> rw [hlook] at h <;>
      dsimp only at h
    · exact ih hidx' h
    · by_cases hf : filter t₀.Kind
      · rw [if_pos hf] at h
        obtain ⟨t₁, hl, hs⟩ := hidx id (by simp)
        rw [hlook] at hl
        cases hl
        exact ⟨id, t₀, hlook, hs, hf, (Option.some_injective _ h).symm⟩
      · rw [if_neg hf] at h; exact ih hidx' h

/-- Witness for C3 (amended). -/
theorem pop_queued_only_queued_eligible_witness :
    ∃ id t₀,
      lookupTask [(1, sampleQueuedTask 1)] id = some t₀ ∧
      t₀.Status = queuedStatus ∧ (fun _ => true) t₀.Kind = true ∧
      ({ sampleQueuedTask 1 with Status := runningStatus, ExpireTime := 105 } : GoTask) =
        { t₀ with Status := runningStatus, ExpireTime := 100 + 5 } :=
  pop_queued_only_queued_eligible [1] [(1, sampleQueuedTask 1)]
    (fun _ => true) 100 _
    (by intro id h; simp only [List.mem_singleton] at h; subst h
        exact ⟨sampleQueuedTask 1, by decide, by decide⟩)
    (by decide)

/-- Counterexample to claim C4: two queued tasks with IDs `1` and `2`
both pass the filter, yet with Go map iteration order `[2, 1]` the
call returns task `2`, not the task with the smallest ID. -/
theorem pop_queued_not_fifo_counterexample :
    popQueued [2, 1] [(1, sampleQueuedTask 1), (2, sampleQueuedTask 2)]
      (fun _ => true) 100 =
      some { sampleQueuedTask 2 with Status := runningStatus, ExpireTime := 105 } ∧
    eligibleTask [(1, sampleQueuedTask 1), (2, sampleQueuedTask 2)]
      (fun _ => true) 1 = true ∧
    (1 : Int) < 2 ∧
    ({ sampleQueuedTask 2 with Status := runningStatus, ExpireTime := 105 } : GoTask).ID = 2 := by
  exact ⟨by decide, by decide, by norm_num, by decide⟩

/-- Amended claim C4: `PopQueued` returns the first task of the
(unspecified) map iteration order that resolves in the task map and
passes the kind filter; no ordering on task IDs is involved, and some
eligible task is returned whenever one exists. -/
theorem pop_queued_first_in_iteration_order (order : List Int)
    (tasks : List (Int × GoTask)) (filter : Int → Bool) (now : Int) :
    (∀ t, popQueued order tasks filter now = some t →
      ∃ pre id post t₀, order = pre ++ id :: post ∧
        (∀ j ∈ pre, eligibleTask tasks filter j = false) ∧
        lookupTask tasks id = some t₀ ∧ filter t₀.Kind = true ∧
        t = { t₀ with Status := runningStatus, ExpireTime := now + 5 }) ∧
    ((∃ id ∈ order, eligibleTask tasks filter id = true) →
      popQueued order tasks filter now ≠ none) := by
  induction order with
  | nil =>
    refine ⟨fun t h => ?_, fun hex => ?_⟩
    · cases h
    · obtain ⟨id, h, _⟩ := hex; cases h
  | cons id rest ih =>
    constructor
    · intro t h
      simp only [popQueued] at h
      rcases hlook : lookupTask tasks id with _ | t₀ <;> rw [hlook] at h <;>
        dsimp only at h
      · obtain ⟨pre, j, post, t₀, hord, hpre, hl, hf, ht⟩ := ih.1 t h
        refine ⟨id :: pre, j, post, t₀, by simp [hord], ?_, hl, hf, ht⟩
        intro k hk
        rcases List.mem_cons.mp hk with rfl | hk
        · simp [eligibleTask, hlook]
        · exact hpre k hk
      · by_cases hf : filter t₀.Kind
        · rw [if_pos hf] at h
          exact ⟨[], id, rest, t₀, rfl, by simp, hlook, hf,
            (Option.some_injective _ h).symm⟩
        · rw [if_neg hf] at h
          obtain ⟨pre, j, post, t₁, hord, hpre, hl, hf', ht⟩ := ih.1 t h
          refine ⟨id :: pre, j, post, t₁, by simp [hord], ?_, hl, hf', ht⟩
          intro k hk
          rcases List.mem_cons.mp hk with rfl | hk
          · simp [eligibleTask, hlook, hf]
          · exact hpre k hk
    · rintro ⟨j, hj, helig⟩
      simp only [popQueued]
      rcases List.mem_cons.mp hj with rfl | hj
      · simp only [eligibleTask] at helig
        rcases hlook : lookupTask tasks j with _ | t₀
        · rw [hlook] at helig
          exact absurd helig (by simp)
        · rw [hlook] at helig
          dsimp only at helig ⊢
          rw [if_pos helig]
          simp
      · rcases hlook : lookupTask tasks id with _ | t₀ <;> dsimp only
        · exact ih.2 ⟨j, hj, helig⟩
        · by_cases hf : filter t₀.Kind
          · rw [if_pos hf]; simp
          · rw [if_neg hf]; exact ih.2 ⟨j, hj, helig⟩

/-- Witness for C4 (amended). -/
theorem pop_queued_first_in_iteration_order_witness :
    ∃ pre id post t₀, ([2] : List Int) = pre ++ id :: post ∧
      (∀ j ∈ pre, eligibleTask [(2, sampleQueuedTask 2)]
        (fun _ => true) j = false) ∧
      lookupTask [(2, sampleQueuedTask 2)] id = some t₀ ∧
      (fun _ => true) t₀.Kind = true ∧
      ({ sampleQueuedTask 2 with Status := runningStatus, ExpireTime := 105 } : GoTask) =
        { t₀ with Status := runningStatus, ExpireTime := 100 + 5 } :=
  (pop_queued_first_in_iteration_order [2] [(2, sampleQueuedTask 2)]
    (fun _ => true) 100).1 _ (by decide)

/-! ## Compile-error handling (claim C7) -/

/-- Counterexample to claim C7: in `Invoker.onJudgeSolution`, a failed
compile (error `7` from `compiler.Compile`) sets
`report.Verdict = compilation_error` and the deferred function
persists that report — but the handler returns the compile error
(`return err`), so `runDaemonTick` marks the task `failed` rather
than succeeded. -/
theorem compile_error_task_failure_counterexample :
    (onJudgeSolution none none (some 7) "log".toList none []).1 =
      some { initialReport with
             Verdict := .compilationError, CompileLog := "log".toList } ∧
    (onJudgeSolution none none (some 7) "log".toList none []).2 = some 7 ∧
    (onJudgeSolution none none (some 7) "log".toList none []).2 ≠ none ∧
    taskStatusAfter
      (onJudgeSolution none none (some 7) "log".toList none []).2 =
      failedStatus ∧
    failedStatus ≠ succeededStatus := by
  refine ⟨rfl, rfl, by simp [onJudgeSolution], rfl, by decide⟩

/-- Amended claim C7: on a non-zero compile exit code,
`judgeSolutionTask.executeImpl` sets `report.verdict =
compilation_error`, runs no tests, persists the report and returns the
update's result (success when the update succeeds); the older
`Invoker.onJudgeSolution` also persists a `compilation_error` report
but returns the compile error, so there the task ends `failed`. -/
theorem compile_error_structured_verdict (code : Int) (log lg : List Char)
    (e : Nat) (hc : code ≠ 0) :
    executeImpl none none none (.finished code log) none =
      (some { initialReport with
              Verdict := .compilationError, Compile := ⟨log⟩ }, none) ∧
    (onJudgeSolution none none (some e) lg none []).1 =
      some { initialReport with
             Verdict := .compilationError, CompileLog := lg } ∧
    (onJudgeSolution none none (some e) lg none []).2 = some e ∧
    taskStatusAfter (onJudgeSolution none none (some e) lg none []).2 =
      failedStatus := by
  refine ⟨?_, rfl, rfl, ?_⟩
  · simp only [executeImpl, compileSolution, if_pos hc]
    rfl
  · simp [taskStatusAfter, onJudgeSolution]

/-- Witness for C7 (amended). -/
theorem compile_error_structured_verdict_witness :
    executeImpl none none none (.finished 2 "err".toList) none =
      (some { initialReport with
              Verdict := .compilationError, Compile := ⟨"err".toList⟩ }, none) ∧
    (onJudgeSolution none none (some 9) "err".toList none []).1 =
      some { initialReport with
             Verdict := .compilationError, CompileLog := "err".toList } ∧
    (onJudgeSolution none none (some 9) "err".toList none []).2 = some 9 ∧
    taskStatusAfter (onJudgeSolution none none (some 9) "err".toList none []).2 =
      failedStatus :=
  compile_error_structured_verdict 2 "err".toList "err".toList 9 (by decide)

/-! ## `SessionStore.GetByCookie` (claim C10) -/

/-- Claim C10 is contradicted by the code: `GetByCookie` panics (index
out of range on `parts[1]`) on the cookie `"5"` — no underscore —
whenever session `5` exists, because `session.Secret != parts[1]` is
evaluated once the map lookup succeeds. The remaining branches do
behave as claimed: a non-numeric prefix gives the parse error, an
unknown id or a wrong secret gives `sql.ErrNoRows`, and a matching
secret returns the session. -/
theorem get_by_cookie_panics_on_missing_underscore :
    getByCookie [(5, ⟨5, 7, "abc".toList, 0, 0⟩)] "5".toList =
      .panicked ∧
    getByCookie [(5, ⟨5, 7, "abc".toList, 0, 0⟩)] "x_abc".toList =
      .errParse ∧
    getByCookie [] "5_abc".toList = .errNoRows ∧
    getByCookie [(5, ⟨5, 7, "abc".toList, 0, 0⟩)] "5_zzz".toList =
      .errNoRows ∧
    getByCookie [(5, ⟨5, 7, "abc".toList, 0, 0⟩)] "5_abc".toList =
      .ok ⟨5, 7, "abc".toList, 0, 0⟩ := by
  refine ⟨by decide, by decide, by decide, by decide, by decide⟩

/-! ## Decimal rendering: basic lemmas -/

theorem digitChar_isDigit (n : Nat) (h : n < 10) :
    isDigitB (digitChar n) = true := by
  interval_cases n <;> decide

theorem digitChar_toNat (n : Nat) (h : n < 10) :
    (digitChar n).toNat = 48 + n := by
  interval_cases n <;> decide

theorem natDecChars_ne_nil (n : Nat) : natDecChars n ≠ [] := by
  rw [natDecChars]
  split <;> simp

theorem natDecChars_all_digits (n : Nat) :
    ∀ c ∈ natDecChars n, isDigitB c = true := by
  induction n using Nat.strong_induction_on with
  | _ n ih =>
    rw [natDecChars]
    split
    · intro c hc
      rcases List.mem_singleton.mp hc with rfl
      exact digitChar_isDigit n (by omega)
    · intro c hc
      rcases List.mem_append.mp hc with hc | hc
      · exact ih (n / 10) (Nat.div_lt_self (by omega) (by omega)) c hc
      · rcases List.mem_singleton.mp hc with rfl
        exact digitChar_isDigit _ (Nat.mod_lt _ (by omega))

theorem isDigitB_newline : isDigitB '\n' = false := by decide

theorem isDigitB_minus : isDigitB '-' = false := by decide

theorem isDigitB_braceClose : isDigitB braceClose = false := by decide

theorem newline_not_mem_natDecChars (n : Nat) : '\n' ∉ natDecChars n := by
  intro h
  have := natDecChars_all_digits n _ h
  rw [isDigitB_newline] at this
  cases this

theorem newline_not_mem_intDecChars (i : Int) : '\n' ∉ intDecChars i := by
  unfold intDecChars
  split
  · intro h
    rcases List.mem_cons.mp h with h | h
    · cases h
    · exact newline_not_mem_natDecChars _ h
  · exact newline_not_mem_natDecChars _

theorem digitsToNat_natDecChars_aux (n : Nat) : ∀ acc : Nat,
    (natDecChars n).foldl (fun a c => a * 10 + (c.toNat - 48)) acc =
      acc * 10 ^ (natDecChars n).length + n := by
  induction n using Nat.strong_induction_on with
  | _ n ih =>
    intro acc
    rw [natDecChars]
    split
    · next h =>
      simp [List.foldl, digitChar_toNat n h]
    · next h =>
      rw [List.foldl_append, ih (n / 10) (Nat.div_lt_self (by omega) (by omega)) acc]
      simp only [List.foldl, List.length_append, List.length_singleton]
      rw [digitChar_toNat (n % 10) (Nat.mod_lt _ (by omega))]
      rw [pow_succ]
      have hmod : 48 + n % 10 - 48 = n % 10 := by omega
      rw [hmod]
      have := Nat.div_add_mod n 10
      ring_nf
      omega

theorem digitsToNat_natDecChars (n : Nat) :
    digitsToNat (natDecChars n) = n := by
  have := digitsToNat_natDecChars_aux n 0
  simpa [digitsToNat] using this

/-! ## JSON round trip and `Task.SetState` (claim C9) -/

theorem dropExactList_append (p s : List Char) :
    dropExactList p (p ++ s) = some s := by
  induction p with
  | nil => rfl
  | cons c cs ih => simp [dropExactList, ih]

theorem takeWhile_append_all {p : Char → Bool} :
    ∀ (l : List Char) (b : Char) (t : List Char),
      (∀ c ∈ l, p c = true) → p b = false →
      (l ++ b :: t).takeWhile p = l := by
  intro l
  induction l with
  | nil => intro b t _ hb; simp [List.takeWhile, hb]
  | cons c cs ih =>
    intro b t hl hb
    have hc : p c = true := hl c (by simp)
    simp only [List.cons_append, List.takeWhile, hc]
    exact congrArg (c :: ·) (ih b t (fun d hd => hl d (by simp [hd])) hb)

theorem dropWhile_append_all {p : Char → Bool} :
    ∀ (l : List Char) (b : Char) (t : List Char),
      (∀ c ∈ l, p c = true) → p b = false →
      (l ++ b :: t).dropWhile p = b :: t := by
  intro l
  induction l with
  | nil => intro b t _ hb; simp [List.dropWhile, hb]
  | cons c cs ih =>
    intro b t hl hb
    have hc : p c = true := hl c (by simp)
    simp only [List.cons_append, List.dropWhile, hc]
    exact ih b t (fun d hd => hl d (by simp [hd])) hb

theorem parseSignedNumber_digits (l : List Char)
    (hl : ∀ c ∈ l, isDigitB c = true) (hne : l ≠ [])
    (hd : l.headD ' ' ≠ '-') :
    parseSignedNumber (l ++ [braceClose]) = some (digitsToNat l : Int) := by
  have htake : (l ++ braceClose :: []).takeWhile isDigitB = l :=
    takeWhile_append_all l braceClose [] hl isDigitB_braceClose
  have hdropw : (l ++ braceClose :: []).dropWhile isDigitB =
      braceClose :: [] :=
    dropWhile_append_all l braceClose [] hl isDigitB_braceClose
  have hhead : (l ++ [braceClose]).headD ' ' ≠ '-' := by
    rcases l with _ | ⟨d, t⟩
    · simp [braceClose]
    · simpa using hd
  unfold parseSignedNumber
  simp only [if_neg hhead]
  simp only [htake, hdropw, if_neg hne]
  simp

theorem parseSignedNumber_neg_digits (l : List Char)
    (hl : ∀ c ∈ l, isDigitB c = true) (hne : l ≠ []) :
    parseSignedNumber ('-' :: l ++ [braceClose]) =
      some (-(digitsToNat l : Int)) := by
  have htake : (l ++ braceClose :: []).takeWhile isDigitB = l :=
    takeWhile_append_all l braceClose [] hl isDigitB_braceClose
  have hdropw : (l ++ braceClose :: []).dropWhile isDigitB =
      braceClose :: [] :=
    dropWhile_append_all l braceClose [] hl isDigitB_braceClose
  unfold parseSignedNumber
  simp only [List.cons_append, List.headD_cons, List.tail_cons]
  simp only [if_true]
  simp only [htake, hdropw, if_neg hne]
  simp

/-- `json.Unmarshal` inverts `json.Marshal` on `JudgeSolutionTaskConfig`
values. -/
theorem unmarshalJudgeConfig_marshalJudgeConfig (c : JudgeSolutionTaskConfig) :
    unmarshalJudgeConfig (marshalJudgeConfig c) = some c := by
  obtain ⟨v⟩ := c
  have hdrop : dropExactList jsonConfigHead (marshalJudgeConfig ⟨v⟩) =
      some (intDecChars v ++ [braceClose]) := by
    rw [marshalJudgeConfig, List.append_assoc]
    exact dropExactList_append _ _
  rw [unmarshalJudgeConfig, hdrop]
  show (parseSignedNumber (intDecChars v ++ [braceClose])).map
      (fun v => (⟨v⟩ : JudgeSolutionTaskConfig)) = some ⟨v⟩
  by_cases hv : v < 0
  · have hint : intDecChars v = '-' :: natDecChars v.natAbs := by
      rw [intDecChars, if_pos hv]
    rw [hint]
    rw [parseSignedNumber_neg_digits _ (natDecChars_all_digits _)
      (natDecChars_ne_nil _)]
    simp only [Option.map, digitsToNat_natDecChars]
    have hval : -((v.natAbs : Nat) : Int) = v := by omega
    rw [hval]
  · have hint : intDecChars v = natDecChars v.toNat := by
      rw [intDecChars, if_neg hv]
    have hd : (natDecChars v.toNat).headD ' ' ≠ '-' := by
      rcases h : natDecChars v.toNat with _ | ⟨d, t⟩
      · exact absurd h (natDecChars_ne_nil _)
      · have hddigit : isDigitB d = true :=
          natDecChars_all_digits v.toNat d (by rw [h]; simp)
        intro hcon
        simp only [List.headD_cons] at hcon
        rw [hcon, isDigitB_minus] at hddigit
        cases hddigit
    rw [hint, parseSignedNumber_digits _ (natDecChars_all_digits _)
      (natDecChars_ne_nil _) hd]
    simp only [Option.map, digitsToNat_natDecChars]
    have hval : ((v.toNat : Nat) : Int) = v := by omega
    rw [hval]


/-- Claim C9: `Task.SetState` marshals its argument into the `Config`
field and leaves every other field — `State` included — unchanged;
`Task.ScanState` unmarshals from `Config`, so a `SetState` followed by
`ScanState` round-trips the value while the original config bytes are
overwritten; neither operation reads or writes the `State` field. -/
theorem task_set_state_uses_config_field (o : GoTask)
    (st : JudgeSolutionTaskConfig) :
    (o.SetState st).State = o.State ∧
    (o.SetState st).ID = o.ID ∧ (o.SetState st).Status = o.Status ∧
    (o.SetState st).Kind = o.Kind ∧
    (o.SetState st).ExpireTime = o.ExpireTime ∧
    (o.SetState st).Config = marshalJudgeConfig st ∧
    (o.SetState st).ScanState = some st ∧
    (∀ o' : GoTask, o'.Config = o.Config →
      o'.ScanState = o.ScanState ∧
      (o'.SetState st).Config = (o.SetState st).Config) := by
  refine ⟨rfl, rfl, rfl, rfl, rfl, rfl,
    unmarshalJudgeConfig_marshalJudgeConfig st, ?_⟩
  intro o' h
  exact ⟨by simp [GoTask.ScanState, h], by simp [GoTask.SetState]⟩

/-- Witness for C9. -/
theorem task_set_state_uses_config_field_witness :
    ((sampleQueuedTask 1).SetState ⟨-42⟩).State = (sampleQueuedTask 1).State ∧
    ((sampleQueuedTask 1).SetState ⟨-42⟩).ID = (sampleQueuedTask 1).ID ∧
    ((sampleQueuedTask 1).SetState ⟨-42⟩).Status = (sampleQueuedTask 1).Status ∧
    ((sampleQueuedTask 1).SetState ⟨-42⟩).Kind = (sampleQueuedTask 1).Kind ∧
    ((sampleQueuedTask 1).SetState ⟨-42⟩).ExpireTime = (sampleQueuedTask 1).ExpireTime ∧
    ((sampleQueuedTask 1).SetState ⟨-42⟩).Config = marshalJudgeConfig ⟨-42⟩ ∧
    ((sampleQueuedTask 1).SetState ⟨-42⟩).ScanState = some ⟨-42⟩ ∧
    (∀ o' : GoTask, o'.Config = (sampleQueuedTask 1).Config →
      o'.ScanState = (sampleQueuedTask 1).ScanState ∧
      (o'.SetState ⟨-42⟩).Config = ((sampleQueuedTask 1).SetState ⟨-42⟩).Config) :=
  task_set_state_uses_config_field (sampleQueuedTask 1) ⟨-42⟩

/-! ## The safeexec report file (claim C8) -/

theorem monitorMemory_foldl_init_le (l : List Int) :
    ∀ init : Int, init ≤ l.foldl (fun m c => if c > m then c else m) init := by
  induction l with
  | nil => intro init; simp
  | cons c t ih =>
    intro init
    simp only [List.foldl]
    rcases le_or_lt c init with h | h
    · rw [if_neg (by omega)]
      exact ih init
    · rw [if_pos (by omega)]
      exact le_trans (le_of_lt h) (ih c)

theorem monitorMemory_ge (samples : List Int) :
    ∀ s ∈ samples, s ≤ monitorMemory samples := by
  unfold monitorMemory
  generalize (0 : Int) = init
  induction samples generalizing init with
  | nil => intro s hs; cases hs
  | cons c t ih =>
    intro s hs
    simp only [List.foldl]
    rcases List.mem_cons.mp hs with rfl | hs
    · rcases le_or_lt s init with h | h
      · rw [if_neg (by omega)]
        exact le_trans h (monitorMemory_foldl_init_le t init)
      · rw [if_pos (by omega)]
        exact monitorMemory_foldl_init_le t s
    · exact ih _ s hs

theorem monitorMemory_mem_or_zero (samples : List Int) :
    monitorMemory samples = 0 ∨ monitorMemory samples ∈ samples := by
  unfold monitorMemory
  have h : ∀ (l : List Int) (init : Int),
      l.foldl (fun m c => if c > m then c else m) init = init ∨
        l.foldl (fun m c => if c > m then c else m) init ∈ l := by
    intro l
    induction l with
    | nil => intro init; left; rfl
    | cons c t ih =>
      intro init
      simp only [List.foldl]
      by_cases hc : c > init
      · rw [if_pos hc]
        rcases ih c with h | h
        · right; simp [h]
        · right; simp [h]
      · rw [if_neg hc]
        rcases ih init with h | h
        · left; exact h
        · right; simp [h]
  rcases h samples 0 with h0 | hmem
  · left; exact h0
  · right; exact hmem

theorem count_newline_eq_zero (l : List Char) (h : '\n' ∉ l) :
    l.count '\n' = 0 :=
  List.count_eq_zero.mpr h

/-- Claim C8: when a report path is configured, the runner writes a
file that is exactly three newline-terminated lines — `time <ms>`,
`memory <bytes>` and `exit_code <int>`; the memory value is the
running maximum of the sampled `memory.current` values (starting from
zero), and the exit code is the child's exit status, or `-1` when the
child did not exit normally. -/
theorem safeexec_report_format (path : List Char) (t : Int)
    (samples : List Int) (st : ChildStatus) (hp : path ≠ []) :
    ∃ l1 l2 l3 : List Char,
      safeexecReportFile path t samples st =
        some (l1 ++ '\n' :: (l2 ++ '\n' :: (l3 ++ ['\n']))) ∧
      l1 = "time ".toList ++ intDecChars t ∧
      l2 = "memory ".toList ++ intDecChars (monitorMemory samples) ∧
      l3 = "exit_code ".toList ++ intDecChars (reportedExitCode st) ∧
      '\n' ∉ l1 ∧ '\n' ∉ l2 ∧ '\n' ∉ l3 ∧
      (l1 ++ '\n' :: (l2 ++ '\n' :: (l3 ++ ['\n']))).count '\n' = 3 ∧
      (∀ s ∈ samples, s ≤ monitorMemory samples) ∧
      (monitorMemory samples = 0 ∨ monitorMemory samples ∈ samples) ∧
      (∀ c : Int, st = .exited c → reportedExitCode st = c) ∧
      (st = .signaled → reportedExitCode st = -1) := by
  have hnl : ∀ (lbl : List Char) (v : Int), '\n' ∉ lbl →
      '\n' ∉ lbl ++ intDecChars v := by
    intro lbl v hlbl hmem
    rcases List.mem_append.mp hmem with h | h
    · exact hlbl h
    · exact newline_not_mem_intDecChars v h
  refine ⟨"time ".toList ++ intDecChars t,
    "memory ".toList ++ intDecChars (monitorMemory samples),
    "exit_code ".toList ++ intDecChars (reportedExitCode st),
    ?_, rfl, rfl, rfl, hnl "time ".toList t (by decide),
    hnl "memory ".toList (monitorMemory samples) (by decide),
    hnl "exit_code ".toList (reportedExitCode st) (by decide), ?_,
    monitorMemory_ge samples,
    monitorMemory_mem_or_zero samples, ?_, ?_⟩
  · rw [safeexecReportFile, if_neg hp]
    simp [reportLine]
  · have c1 : List.count '\n' (intDecChars t) = 0 :=
      count_newline_eq_zero _ (newline_not_mem_intDecChars t)
    have c2 : List.count '\n' (intDecChars (monitorMemory samples)) = 0 :=
      count_newline_eq_zero _ (newline_not_mem_intDecChars _)
    have c3 : List.count '\n' (intDecChars (reportedExitCode st)) = 0 :=
      count_newline_eq_zero _ (newline_not_mem_intDecChars _)
    have h1 : List.count '\n' "time ".toList = 0 := by decide
    have h2 : List.count '\n' "memory ".toList = 0 := by decide
    have h3 : List.count '\n' "exit_code ".toList = 0 := by decide
    simp only [List.count_append, List.count_cons_self, List.count_nil,
      c1, c2, c3, h1, h2, h3]
  · intro c hc; rw [hc]; rfl
  · intro hc; rw [hc]; rfl

/-- Witness for C8. -/
theorem safeexec_report_format_witness :
    ∃ l1 l2 l3 : List Char,
      safeexecReportFile "r".toList 42 [3, 7, 5] (.exited 0) =
        some (l1 ++ '\n' :: (l2 ++ '\n' :: (l3 ++ ['\n']))) ∧
      l1 = "time ".toList ++ intDecChars 42 ∧
      l2 = "memory ".toList ++ intDecChars (monitorMemory [3, 7, 5]) ∧
      l3 = "exit_code ".toList ++ intDecChars (reportedExitCode (.exited 0)) ∧
      '\n' ∉ l1 ∧ '\n' ∉ l2 ∧ '\n' ∉ l3 ∧
      (l1 ++ '\n' :: (l2 ++ '\n' :: (l3 ++ ['\n']))).count '\n' = 3 ∧
      (∀ s ∈ [(3 : Int), 7, 5], s ≤ monitorMemory [3, 7, 5]) ∧
      (monitorMemory [3, 7, 5] = 0 ∨ monitorMemory [3, 7, 5] ∈ [(3 : Int), 7, 5]) ∧
      (∀ c : Int, ChildStatus.exited 0 = .exited c →
        reportedExitCode (.exited 0) = c) ∧
      (ChildStatus.exited 0 = .signaled →
        reportedExitCode (.exited 0) = -1) :=
  safeexec_report_format "r".toList 42 [3, 7, 5] (.exited 0) (by decide)

/-! ## Event consumer: range arithmetic (claims C1 and C5) -/

theorem containsId_iff {r : EventRange} {id : Int} :
    r.containsId id = true ↔ r.Begin ≤ id ∧ (r.End = 0 ∨ id < r.End) := by
  simp [EventRange.containsId]

theorem inRanges_iff {l : List EventRange} {id : Int} :
    inRanges l id = true ↔ ∃ r ∈ l, r.containsId id = true := by
  simp [inRanges]

theorem inRanges_append {a b : List EventRange} {id : Int} :
    inRanges (a ++ b) id = (inRanges a id || inRanges b id) := by
  simp [inRanges, List.any_append]

theorem RangeInv.ne_nil {lo : Int} {l : List EventRange}
    (h : RangeInv lo l) : l ≠ [] := by
  cases h <;> simp

theorem RangeInv.mono {lo lo' : Int} {l : List EventRange}
    (h : RangeInv lo l) (hle : lo' ≤ lo) : RangeInv lo' l := by
  cases h with
  | last _ B h1 h2 => exact .last lo' B h1 (by omega)
  | cons _ B E rs h1 h2 h3 tail => exact .cons lo' B E rs h1 (by omega) h3 tail

theorem RangeInv.head_begin_ge {lo : Int} {l : List EventRange}
    (h : RangeInv lo l) : lo ≤ (l.headD ⟨0, 0⟩).Begin := by
  cases h with
  | last _ B h1 h2 => simpa using h2
  | cons _ B E rs h1 h2 h3 tail => simpa using h2

theorem RangeInv.begin_pos {lo : Int} {l : List EventRange}
    (h : RangeInv lo l) : 1 ≤ (l.headD ⟨0, 0⟩).Begin := by
  cases h with
  | last _ B h1 h2 => simpa using h1
  | cons _ B E rs h1 h2 h3 tail => simpa using h1

theorem RangeInv.lower_bound {lo : Int} {l : List EventRange}
    (h : RangeInv lo l) : ∀ id : Int, inRanges l id = true → lo ≤ id := by
  induction h with
  | last lo B h1 h2 =>
    intro id hid
    obtain ⟨r, hr, hc⟩ := inRanges_iff.mp hid
    rcases List.mem_singleton.mp hr with rfl
    obtain ⟨ha, _⟩ := containsId_iff.mp hc
    simp only at ha
    omega
  | cons lo B E rs h1 h2 h3 tail ih =>
    intro id hid
    obtain ⟨r, hr, hc⟩ := inRanges_iff.mp hid
    rcases List.mem_cons.mp hr with rfl | hr
    · obtain ⟨ha, _⟩ := containsId_iff.mp hc
      simp only at ha
      omega
    · have := ih id (inRanges_iff.mpr ⟨r, hr, hc⟩)
      omega

theorem RangeInv.cons_inv {lo : Int} {r : EventRange} {l : List EventRange}
    (h : RangeInv lo (r :: l)) (hl : l ≠ []) :
    1 ≤ r.Begin ∧ lo ≤ r.Begin ∧ r.Begin ≤ r.End ∧ RangeInv r.End l := by
  cases h with
  | last _ B h1 h2 => exact absurd rfl hl
  | cons _ B E rs h1 h2 h3 tail => exact ⟨h1, h2, h3, tail⟩

theorem RangeInv.append_mid {lo : Int} {l : List EventRange}
    (h : RangeInv lo l) : ∀ p q, l = p ++ q → q ≠ [] →
    ∃ m, lo ≤ m ∧ RangeInv m q ∧
      ∀ r ∈ p, 1 ≤ r.Begin ∧ r.Begin ≤ r.End ∧ r.End ≤ m := by
  induction h with
  | last lo B h1 h2 =>
    intro p q hpq hq
    rcases p with _ | ⟨r, p'⟩
    · rw [List.nil_append] at hpq
      exact ⟨lo, le_refl _, hpq ▸ RangeInv.last lo B h1 h2, by simp⟩
    · rw [List.cons_append] at hpq
      obtain ⟨-, htail⟩ := List.cons.inj hpq
      exact absurd (List.append_eq_nil.mp htail.symm).2 hq
  | cons lo B E rs h1 h2 h3 tail ih =>
    intro p q hpq hq
    rcases p with _ | ⟨r, p'⟩
    · rw [List.nil_append] at hpq
      exact ⟨lo, le_refl _, hpq ▸ RangeInv.cons lo B E rs h1 h2 h3 tail,
        by simp⟩
    · rw [List.cons_append] at hpq
      obtain ⟨hr, htail⟩ := List.cons.inj hpq
      obtain ⟨m, hm1, hm2, hm3⟩ := ih p' q htail hq
      refine ⟨m, by omega, hm2, ?_⟩
      intro r' hr'
      rcases List.mem_cons.mp hr' with rfl | hr'
      · exact hr ▸ ⟨h1, h3, hm1⟩
      · exact hm3 r' hr'

theorem stepRange_subset {id x : Int} {r : EventRange} (hid : 1 ≤ id)
    (hc : r.containsId id = true)
    (hx : inRanges (stepRange id r) x = true) :
    r.containsId x = true ∧ x ≠ id := by
  obtain ⟨hcb, hce⟩ := containsId_iff.mp hc
  unfold stepRange at hx
  split at hx
  · next heq =>
    obtain ⟨r', hr', hc'⟩ := inRanges_iff.mp hx
    rcases List.mem_singleton.mp hr' with rfl
    obtain ⟨ha, hb⟩ := containsId_iff.mp hc'
    simp only at ha hb
    exact ⟨containsId_iff.mpr ⟨by omega, hb⟩, by omega⟩
  · next hne =>
    obtain ⟨r', hr', hc'⟩ := inRanges_iff.mp hx
    rcases List.mem_cons.mp hr' with rfl | hr'
    · obtain ⟨ha, hb⟩ := containsId_iff.mp hc'
      simp only at ha hb
      have hxi : x < id := by omega
      refine ⟨containsId_iff.mpr ⟨ha, ?_⟩, by omega⟩
      rcases hce with h0 | h0
      · exact Or.inl h0
      · exact Or.inr (by omega)
    · rcases List.mem_singleton.mp hr' with rfl
      obtain ⟨ha, hb⟩ := containsId_iff.mp hc'
      simp only at ha hb
      exact ⟨containsId_iff.mpr ⟨by omega, hb⟩, by omega⟩

theorem stepRange_keeps {id x : Int} {r : EventRange}
    (hc : r.containsId id = true) (hx : r.containsId x = true)
    (hne : x ≠ id) : inRanges (stepRange id r) x = true := by
  obtain ⟨hcb, hce⟩ := containsId_iff.mp hc
  obtain ⟨hxb, hxe⟩ := containsId_iff.mp hx
  unfold stepRange
  split
  · next heq =>
    refine inRanges_iff.mpr ⟨_, List.mem_singleton_self _, ?_⟩
    refine containsId_iff.mpr ⟨?_, ?_⟩
    · show r.Begin + 1 ≤ x
      omega
    · show r.End = 0 ∨ x < r.End
      exact hxe
  · next hne' =>
    rcases lt_or_gt_of_ne (show x ≠ id from hne) with hlt | hgt
    · refine inRanges_iff.mpr ⟨{ Begin := r.Begin, End := id }, by simp,
        containsId_iff.mpr ⟨?_, ?_⟩⟩
      · show r.Begin ≤ x
        omega
      · show id = 0 ∨ x < id
        exact Or.inr hlt
    · refine inRanges_iff.mpr ⟨{ Begin := id + 1, End := r.End }, by simp,
        containsId_iff.mpr ⟨?_, ?_⟩⟩
      · show id + 1 ≤ x
        omega
      · show r.End = 0 ∨ x < r.End
        exact hxe

theorem RangeInv.head_cases {lo : Int} {l : List EventRange}
    (h : RangeInv lo l) :
    ∃ B E rs, l = { Begin := B, End := E } :: rs ∧ 1 ≤ B ∧ lo ≤ B ∧
      ((E = 0 ∧ rs = []) ∨ (B ≤ E ∧ RangeInv E rs)) := by
  induction h with
  | last lo B h1 h2 => exact ⟨B, 0, [], rfl, h1, h2, Or.inl ⟨rfl, rfl⟩⟩
  | cons lo B E rs h1 h2 h3 tail ih =>
    exact ⟨B, E, rs, rfl, h1, h2, Or.inr ⟨h3, tail⟩⟩

theorem step_preserves {id : Int} :
    ∀ (p : List EventRange) (lo : Int) (r : EventRange)
      (rs : List EventRange), RangeInv lo (p ++ r :: rs) →
      r.containsId id = true →
      RangeInv lo (p ++ (stepRange id r ++ rs)) := by
  intro p
  induction p with
  | nil =>
    intro lo r rs hinv hc
    rw [List.nil_append] at hinv ⊢
    obtain ⟨B, E, rs2, hl, h1, h2, hrest⟩ := hinv.head_cases
    obtain ⟨hr, hrs⟩ := List.cons.inj hl
    subst hr
    subst hrs
    obtain ⟨hcb, hce⟩ := containsId_iff.mp hc
    have hcb' : B ≤ id := hcb
    rcases hrest with ⟨hE0, hrs0⟩ | ⟨hBE, htail⟩
    · subst hE0
      subst hrs0
      unfold stepRange
      split
      · next heq =>
        have heq' : id = B := heq
        rw [List.append_nil]
        exact .last lo (B + 1) (by omega) (by omega)
      · next hne =>
        have hne' : ¬id = B := hne
        rw [List.append_nil]
        refine .cons lo B id _ (by omega) (by omega) (by omega) ?_
        exact .last id (id + 1) (by omega) (by omega)
    · have hbe' : B ≤ E := hBE
      have hE : 1 ≤ E := by omega
      have hce' : E = 0 ∨ id < E := hce
      have hid : id < E := by omega
      unfold stepRange
      split
      · next heq =>
        have heq' : id = B := heq
        rw [List.cons_append, List.nil_append]
        exact .cons lo (B + 1) E _ (by omega) (by omega) (by omega) htail
      · next hne =>
        have hne' : ¬id = B := hne
        rw [List.cons_append, List.cons_append, List.nil_append]
        refine .cons lo B id _ (by omega) (by omega) (by omega) ?_
        exact .cons id (id + 1) E _ (by omega) (by omega) (by omega) htail
  | cons rp p' ih =>
    intro lo r rs hinv hc
    rw [List.cons_append] at hinv ⊢
    obtain ⟨h1, h2, h3, htail⟩ := hinv.cons_inv (by simp)
    obtain ⟨B, E⟩ := rp
    exact .cons lo B E _ h1 h2 h3 (ih _ _ _ htail hc)


theorem skipRanges_append {id : Int} :
    ∀ (rest passed p' r' : List EventRange),
      skipRanges id passed rest = (p', r') → p' ++ r' = passed ++ rest := by
  intro rest
  induction rest with
  | nil =>
    intro passed p' r' h
    obtain ⟨h1, h2⟩ := Prod.mk.inj (h.symm.trans (by rfl)).symm
    simp [← h1, ← h2]
  | cons r rs ih =>
    intro passed p' r' h
    rw [skipRanges] at h
    split at h
    · obtain ⟨h1, h2⟩ := Prod.mk.inj h
      simp [← h1, ← h2]
    · have := ih (passed ++ [r]) p' r' h
      simpa using this

theorem skipRanges_found {id : Int} :
    ∀ (rest passed p' : List EventRange) (r : EventRange)
      (rs' : List EventRange),
      skipRanges id passed rest = (p', r :: rs') →
      r.containsId id = true := by
  intro rest
  induction rest with
  | nil =>
    intro passed p' r rs' h
    rw [skipRanges] at h
    cases (Prod.mk.inj h).2
  | cons q qs ih =>
    intro passed p' r rs' h
    rw [skipRanges] at h
    split at h
    · next hq =>
      obtain ⟨h1, h2⟩ := Prod.mk.inj h
      rw [← (List.cons.inj h2).1]
      exact hq
    · exact ih (passed ++ [q]) p' r rs' h

theorem skipRanges_finds {id : Int} :
    ∀ (rest passed : List EventRange), inRanges rest id = true →
      ∃ p' r rs', skipRanges id passed rest = (p', r :: rs') := by
  intro rest
  induction rest with
  | nil => intro passed h; simp [inRanges] at h
  | cons q qs ih =>
    intro passed h
    rw [skipRanges]
    by_cases hq : q.containsId id = true
    · rw [if_pos hq]
      exact ⟨passed, q, qs, rfl⟩
    · rw [if_neg hq]
      have : inRanges qs id = true := by
        rcases inRanges_iff.mp h with ⟨r, hr, hc⟩
        rcases List.mem_cons.mp hr with rfl | hr
        · exact absurd hc hq
        · exact inRanges_iff.mpr ⟨r, hr, hc⟩
      exact ih (passed ++ [q]) this

theorem inRanges_cons {r : EventRange} {rs : List EventRange} {x : Int} :
    inRanges (r :: rs) x = (r.containsId x || inRanges rs x) := by
  simp [inRanges]

theorem step_removes {lo id : Int} (p rs : List EventRange) (r : EventRange)
    (hinv : RangeInv lo (p ++ r :: rs)) (hc : r.containsId id = true)
    (x : Int) :
    inRanges (p ++ (stepRange id r ++ rs)) x = true ↔
      inRanges (p ++ r :: rs) x = true ∧ x ≠ id := by
  obtain ⟨m, hm1, hm2, hm3⟩ := hinv.append_mid p (r :: rs) rfl (by simp)
  have hmB : m ≤ r.Begin := by simpa using hm2.head_begin_ge
  obtain ⟨B, E, rs2, hl, hB1, hBm, hrest⟩ := hm2.head_cases
  obtain ⟨hr, hrs⟩ := List.cons.inj hl
  subst hr
  subst hrs
  obtain ⟨hcb, hce⟩ := containsId_iff.mp hc
  have hcbB : B ≤ id := hcb
  have hceE : E = 0 ∨ id < E := hce
  have hmB' : m ≤ B := hmB
  have hid1 : 1 ≤ id := by omega
  have hpx : ∀ rp ∈ p, rp.containsId x = true → x < id := by
    intro rp hrp hcx
    obtain ⟨k1, k2, k3⟩ := hm3 rp hrp
    obtain ⟨ha, hb⟩ := containsId_iff.mp hcx
    rcases hb with hb | hb
    · omega
    · omega
  have hrsx : ∀ x' : Int, inRanges rs x' = true → id < x' := by
    intro x' hx'
    rcases hrest with ⟨hE0, hrs0⟩ | ⟨hBE, htail⟩
    · rw [hrs0] at hx'
      simp [inRanges] at hx'
    · have hlow := htail.lower_bound x' hx'
      rcases hceE with h0 | h0
      · omega
      · omega
  constructor
  · intro hx
    rw [inRanges_append, inRanges_append, Bool.or_eq_true,
      Bool.or_eq_true] at hx
    rcases hx with hx | hx | hx
    · have hne : x ≠ id := by
        obtain ⟨rp, hrp, hcx⟩ := inRanges_iff.mp hx
        have := hpx rp hrp hcx
        omega
      refine ⟨?_, hne⟩
      rw [inRanges_append, Bool.or_eq_true]
      exact Or.inl hx
    · obtain ⟨hrx, hne⟩ := stepRange_subset hid1 hc hx
      refine ⟨?_, hne⟩
      rw [inRanges_append, Bool.or_eq_true]
      refine Or.inr ?_
      rw [inRanges_cons, Bool.or_eq_true]
      exact Or.inl hrx
    · have hne : x ≠ id := by
        have := hrsx x hx
        omega
      refine ⟨?_, hne⟩
      rw [inRanges_append, Bool.or_eq_true]
      refine Or.inr ?_
      rw [inRanges_cons, Bool.or_eq_true]
      exact Or.inr hx
  · rintro ⟨hx, hne⟩
    rw [inRanges_append, Bool.or_eq_true] at hx
    rw [inRanges_append, inRanges_append, Bool.or_eq_true, Bool.or_eq_true]
    rcases hx with hx | hx
    · exact Or.inl hx
    · rw [inRanges_cons, Bool.or_eq_true] at hx
      rcases hx with hx | hx
      · exact Or.inr (Or.inl (stepRange_keeps hc hx hne))
      · exact Or.inr (Or.inr hx)

/-- The main invariant of the event loop: the range list stays
well-formed, the unseen set only shrinks, every delivered id was in
the unseen set, every successfully delivered id has left it, no
successfully delivered id is ever delivered again within the call,
and an `fn` error ends the log with the failing event, whose id is
still unseen. -/
theorem consumeLoop_spec (fn : Int → Bool) :
    ∀ (evs : List Int) (lo : Int) (passed rest : List EventRange)
      (ds : List (Int × Bool)) (rgs : List EventRange) (res : ConsumeResult),
      RangeInv lo (passed ++ rest) →
      consumeLoop fn evs passed rest = (ds, rgs, res) →
      RangeInv lo rgs ∧
      (∀ x : Int, inRanges rgs x = true → inRanges (passed ++ rest) x = true) ∧
      (∀ pr ∈ ds, inRanges (passed ++ rest) pr.1 = true ∧ pr.1 ∈ evs ∧
        pr.2 = fn pr.1) ∧
      (∀ pr ∈ ds, pr.2 = true → inRanges rgs pr.1 = false) ∧
      ds.Pairwise (fun a b => a.2 = true → a.1 ≠ b.1) ∧
      (res = .fnError → ∃ e ds₀, ds = ds₀ ++ [(e, false)] ∧
        inRanges rgs e = true ∧ fn e = false) := by
  intro evs
  induction evs with
  | nil =>
    intro lo passed rest ds rgs res hinv heq
    rw [consumeLoop] at heq
    injection heq with h1 h23
    injection h23 with h2 h3
    subst h1
    subst h2
    subst h3
    exact ⟨hinv, fun x hx => hx, by simp, by simp, .nil, by intro h; cases h⟩
  | cons id evs ih =>
    intro lo passed rest ds rgs res hinv heq
    rw [consumeLoop] at heq
    rcases hskip : skipRanges id passed rest with ⟨p, rest₂⟩
    rw [hskip] at heq
    have happ : p ++ rest₂ = passed ++ rest :=
      skipRanges_append rest passed p rest₂ hskip
    rcases rest₂ with _ | ⟨r, rs⟩
    · dsimp only at heq
      injection heq with h1 h23
      injection h23 with h2 h3
      subst h1
      subst h2
      subst h3
      rw [List.append_nil] at happ
      subst happ
      exact ⟨hinv, fun x hx => hx, by simp, by simp, .nil,
        by intro h; cases h⟩
    · have hcont : r.containsId id = true :=
        skipRanges_found rest passed p r rs hskip
      have hinv' : RangeInv lo (p ++ r :: rs) := by rw [happ]; exact hinv
      dsimp only at heq
      by_cases hfn : fn id = true
      · rw [if_pos hfn] at heq
        rcases hout : consumeLoop fn evs p (stepRange id r ++ rs) with
          ⟨ds', rgs', res'⟩
        rw [hout] at heq
        dsimp only at heq
        injection heq with h1 h23
        injection h23 with h2 h3
        subst h1
        subst h2
        subst h3
        have hstep := step_preserves p lo r rs hinv' hcont
        obtain ⟨ha, hb, hc2, hd, he, hf⟩ :=
          ih lo p (stepRange id r ++ rs) ds' rgs' res' hstep hout
        have hrem := step_removes p rs r hinv' hcont
        rw [← happ]
        refine ⟨ha, ?_, ?_, ?_, ?_, ?_⟩
        · intro x hx
          exact ((hrem x).mp (hb x hx)).1
        · intro pr hpr
          rcases List.mem_cons.mp hpr with rfl | hpr
          · refine ⟨?_, by simp, by simp [hfn]⟩
            rw [inRanges_append, Bool.or_eq_true]
            refine Or.inr ?_
            rw [inRanges_cons, Bool.or_eq_true]
            exact Or.inl hcont
          · obtain ⟨k1, k2, k3⟩ := hc2 pr hpr
            exact ⟨((hrem pr.1).mp k1).1, by simp [k2], k3⟩
        · intro pr hpr hpr2
          rcases List.mem_cons.mp hpr with rfl | hpr
          · by_contra hcon
            rw [Bool.not_eq_false] at hcon
            exact ((hrem id).mp (hb id hcon)).2 rfl
          · exact hd pr hpr hpr2
        · refine List.Pairwise.cons ?_ he
          intro b hb' _
          obtain ⟨k1, -, -⟩ := hc2 b hb'
          exact Ne.symm ((hrem b.1).mp k1).2
        · intro hres
          obtain ⟨e, ds₀, hds, hin, hfe⟩ := hf hres
          exact ⟨e, (id, true) :: ds₀, by simp [hds], hin, hfe⟩
      · rw [if_neg hfn] at heq
        have hfnf : fn id = false := by
          cases h2 : fn id
          · rfl
          · exact absurd h2 hfn
        injection heq with h1 h23
        injection h23 with h2 h3
        subst h1
        subst h2
        subst h3
        rw [← happ]
        have hidin : inRanges (p ++ r :: rs) id = true := by
          rw [inRanges_append, Bool.or_eq_true]
          refine Or.inr ?_
          rw [inRanges_cons, Bool.or_eq_true]
          exact Or.inl hcont
        refine ⟨hinv', fun x hx => hx, ?_, ?_, ?_, ?_⟩
        · intro pr hpr
          rcases List.mem_singleton.mp hpr with rfl
          exact ⟨hidin, by simp, by simp [hfnf]⟩
        · intro pr hpr hpr2
          rcases List.mem_singleton.mp hpr with rfl
          simp at hpr2
        · exact List.pairwise_singleton _ _
        · intro _
          exact ⟨id, [], by simp, hidin, hfnf⟩

theorem RangeInv.filter_ne {lo : Int} {l : List EventRange}
    (h : RangeInv lo l) :
    RangeInv lo (l.filter (fun r => r.Begin ≠ r.End)) := by
  induction h with
  | last lo B h1 h2 =>
    have hb : ({ Begin := B, End := 0 } : EventRange).Begin ≠
        ({ Begin := B, End := 0 } : EventRange).End := by
      show B ≠ 0
      omega
    rw [List.filter_cons, List.filter_nil, if_pos (decide_eq_true hb)]
    exact .last lo B h1 h2
  | cons lo B E rs h1 h2 h3 tail ih =>
    by_cases hbe : B = E
    · have hb : ¬(decide (({ Begin := B, End := E } : EventRange).Begin ≠
          ({ Begin := B, End := E } : EventRange).End) = true) := by
        simp only [decide_eq_true_eq]
        show ¬B ≠ E
        omega
      rw [List.filter_cons, if_neg hb]
      exact (hbe ▸ ih).mono (by omega)
    · have hb : decide (({ Begin := B, End := E } : EventRange).Begin ≠
          ({ Begin := B, End := E } : EventRange).End) = true := by
        simp only [decide_eq_true_eq]
        show B ≠ E
        omega
      rw [List.filter_cons, if_pos hb]
      exact .cons lo B E _ h1 h2 h3 ih

theorem RangeInv.drop_inv :
    ∀ (k : Nat) (lo : Int) (l : List EventRange), RangeInv lo l →
      k < l.length → ∃ m, lo ≤ m ∧ RangeInv m (l.drop k) := by
  intro k
  induction k with
  | zero => intro lo l h _; exact ⟨lo, le_refl _, by simpa using h⟩
  | succ k ih =>
    intro lo l h hk
    obtain ⟨B, E, rs, hl, hB1, hBlo, hrest⟩ := h.head_cases
    subst hl
    rcases hrest with ⟨hE0, hrs0⟩ | ⟨hBE, htail⟩
    · subst hrs0
      simp at hk
    · have hk' : k < rs.length := by simpa using hk
      obtain ⟨m, hm1, hm2⟩ := ih E rs htail hk'
      exact ⟨m, by omega, by simpa using hm2⟩

theorem removeEmptyRanges_inv {lo : Int} {l : List EventRange}
    (h : RangeInv lo l) :
    ∃ m, lo ≤ m ∧ RangeInv m (removeEmptyRanges l) := by
  have hf := h.filter_ne
  simp only [removeEmptyRanges]
  split
  · next hlen =>
    refine RangeInv.drop_inv _ lo _ hf ?_
    have : 1 ≤ eventGapSkipWindow := by norm_num [eventGapSkipWindow]
    omega
  · exact ⟨lo, le_refl _, hf⟩

theorem removeEmptyRanges_subset {l : List EventRange} {x : Int}
    (h : inRanges (removeEmptyRanges l) x = true) :
    inRanges l x = true := by
  simp only [removeEmptyRanges] at h
  split at h <;>
    obtain ⟨r, hr, hcx⟩ := inRanges_iff.mp h
  · exact inRanges_iff.mpr
      ⟨r, List.mem_of_mem_filter (List.mem_of_mem_drop hr), hcx⟩
  · exact inRanges_iff.mpr ⟨r, List.mem_of_mem_filter hr, hcx⟩

/-- The per-call contract of `ConsumeEvents`. -/
theorem consumeEvents_spec (store : List Int) (fn : Int → Bool)
    (lo : Int) (st : List EventRange) (ds : List (Int × Bool))
    (st' : List EventRange) (res : ConsumeResult)
    (hinv : RangeInv lo st)
    (heq : consumeEvents store fn st = (ds, st', res)) :
    (∃ m, lo ≤ m ∧ RangeInv m st') ∧
    (∀ x : Int, inRanges st' x = true → inRanges st x = true) ∧
    (∀ pr ∈ ds, inRanges st pr.1 = true ∧ pr.1 ∈ store ∧ pr.2 = fn pr.1) ∧
    (∀ pr ∈ ds, pr.2 = true → inRanges st' pr.1 = false) ∧
    ds.Pairwise (fun a b => a.2 = true → a.1 ≠ b.1) ∧
    (res = .fnError → ∃ e ds₀, ds = ds₀ ++ [(e, false)] ∧
      inRanges st' e = true ∧ fn e = false) := by
  unfold consumeEvents at heq
  rcases hloop : consumeLoop fn (loadEvents store st) [] st with
    ⟨ds₁, rgs₁, res₁⟩
  rw [hloop] at heq
  obtain ⟨ha, hb, hc2, hd, he, hf⟩ :=
    consumeLoop_spec fn (loadEvents store st) lo [] st ds₁ rgs₁ res₁
      (by simpa using hinv) hloop
  simp only [List.nil_append] at hb hc2
  have hload : ∀ e : Int, e ∈ loadEvents store st →
      e ∈ store ∧ inRanges st e = true := by
    intro e hemem
    unfold loadEvents at hemem
    have hperm := List.perm_insertionSort (fun a b : Int => a ≤ b)
      (store.filter (fun id => inRanges st id))
    have hmem := hperm.mem_iff.mp hemem
    exact ⟨List.mem_of_mem_filter hmem, by
      have := List.of_mem_filter hmem
      simpa using this⟩
  cases res₁ with
  | ok =>
    dsimp only at heq
    injection heq with h1 h23
    injection h23 with h2 h3
    subst h1
    subst h2
    subst h3
    refine ⟨removeEmptyRanges_inv ha, ?_, ?_, ?_, he, by intro h; cases h⟩
    · intro x hx
      exact hb x (removeEmptyRanges_subset hx)
    · intro pr hpr
      obtain ⟨k1, k2, k3⟩ := hc2 pr hpr
      exact ⟨k1, (hload pr.1 k2).1, k3⟩
    · intro pr hpr hpr2
      by_contra hcon
      rw [Bool.not_eq_false] at hcon
      have := hd pr hpr hpr2
      rw [removeEmptyRanges_subset hcon] at this
      cases this
  | fnError =>
    dsimp only at heq
    injection heq with h1 h23
    injection h23 with h2 h3
    subst h1
    subst h2
    subst h3
    refine ⟨⟨lo, le_refl _, ha⟩, hb, ?_, hd, he, fun _ => hf rfl⟩
    intro pr hpr
    obtain ⟨k1, k2, k3⟩ := hc2 pr hpr
    exact ⟨k1, (hload pr.1 k2).1, k3⟩
  | invalidEvent =>
    dsimp only at heq
    injection heq with h1 h23
    injection h23 with h2 h3
    subst h1
    subst h2
    subst h3
    refine ⟨⟨lo, le_refl _, ha⟩, hb, ?_, hd, he, by intro h; cases h⟩
    intro pr hpr
    obtain ⟨k1, k2, k3⟩ := hc2 pr hpr
    exact ⟨k1, (hload pr.1 k2).1, k3⟩

/-- The multi-call contract: across any sequence of `ConsumeEvents`
calls, the unseen set only shrinks, each delivery was unseen at the
start of the sequence, each successful delivery leaves the final
unseen set, and a successful delivery is never followed by another
delivery of the same event id. -/
theorem runConsumer_spec :
    ∀ (calls : List (List Int × (Int → Bool))) (lo : Int)
      (st : List EventRange) (ds : List (Int × Bool))
      (stF : List EventRange),
      RangeInv lo st →
      runConsumer calls st = (ds, stF) →
      (∃ m, lo ≤ m ∧ RangeInv m stF) ∧
      (∀ x : Int, inRanges stF x = true → inRanges st x = true) ∧
      (∀ pr ∈ ds, inRanges st pr.1 = true) ∧
      (∀ pr ∈ ds, pr.2 = true → inRanges stF pr.1 = false) ∧
      ds.Pairwise (fun a b => a.2 = true → a.1 ≠ b.1) := by
  intro calls
  induction calls with
  | nil =>
    intro lo st ds stF hinv heq
    rw [runConsumer] at heq
    injection heq with h1 h2
    subst h1
    subst h2
    exact ⟨⟨lo, le_refl _, hinv⟩, fun x hx => hx, by simp, by simp, .nil⟩
  | cons c calls ih =>
    rcases c with ⟨store, fn⟩
    intro lo st ds stF hinv heq
    rw [runConsumer] at heq
    rcases h1 : consumeEvents store fn st with ⟨ds₁, st₁, res₁⟩
    rw [h1] at heq
    rcases h2 : runConsumer calls st₁ with ⟨ds₂, st₂⟩
    rw [h2] at heq
    dsimp only at heq
    injection heq with k1 k2
    subst k1
    subst k2
    obtain ⟨⟨m1, hm1, hst1⟩, sub1, del1, rem1, pw1, -⟩ :=
      consumeEvents_spec store fn lo st ds₁ st₁ res₁ hinv h1
    obtain ⟨⟨m2, hm2, hst2⟩, sub2, del2, rem2, pw2⟩ :=
      ih m1 st₁ ds₂ st₂ hst1 h2
    refine ⟨⟨m2, by omega, hst2⟩, ?_, ?_, ?_, ?_⟩
    · intro x hx
      exact sub1 x (sub2 x hx)
    · intro pr hpr
      rcases List.mem_append.mp hpr with hpr | hpr
      · exact (del1 pr hpr).1
      · exact sub1 pr.1 (del2 pr hpr)
    · intro pr hpr hpr2
      rcases List.mem_append.mp hpr with hpr | hpr
      · by_contra hcon
        rw [Bool.not_eq_false] at hcon
        have := rem1 pr hpr hpr2
        rw [sub2 pr.1 hcon] at this
        cases this
      · exact rem2 pr hpr hpr2
    · rw [List.pairwise_append]
      refine ⟨pw1, pw2, ?_⟩
      intro a ha b hb hab
      have h1' := rem1 a ha hab
      have h2' := del2 b hb
      intro hcon
      rw [hcon] at h1'
      rw [h1'] at h2'
      cases h2'

/-- Amended claim C1: over any sequence of `ConsumeEvents` calls on a
consumer created with `beginID ≥ 1`, an event delivery for which `fn`
succeeded is never followed by another delivery of the same event id
(deliveries where `fn` failed may be repeated — see the
counterexample); moreover `ranges` stays non-empty, `BeginEventID`
returns `ranges[0].Begin`, and every event id the consumer may still
deliver is at least `BeginEventID`, so it is a safe restart
checkpoint. -/
theorem event_consumer_successful_delivery_unique
    (calls : List (List Int × (Int → Bool))) (beginID : Int)
    (hb : 1 ≤ beginID) :
    (runConsumer calls (newEventConsumer beginID)).1.Pairwise
      (fun a b => a.2 = true → a.1 ≠ b.1) ∧
    (∃ r rs, (runConsumer calls (newEventConsumer beginID)).2 = r :: rs ∧
      beginEventID (runConsumer calls (newEventConsumer beginID)).2 =
        r.Begin ∧
      (∀ x : Int,
        inRanges (runConsumer calls (newEventConsumer beginID)).2 x = true →
        r.Begin ≤ x)) := by
  rcases heq : runConsumer calls (newEventConsumer beginID) with ⟨ds, stF⟩
  have hinv0 : RangeInv beginID (newEventConsumer beginID) :=
    .last beginID beginID hb (le_refl _)
  obtain ⟨⟨m, hm, hstF⟩, -, -, -, pw⟩ :=
    runConsumer_spec calls beginID _ ds stF hinv0 heq
  obtain ⟨B, E, rs2, hl, hB1, hBm, hrest⟩ := hstF.head_cases
  have hstB : RangeInv B ({ Begin := B, End := E } :: rs2) := by
    rcases hrest with ⟨hE0, hrs0⟩ | ⟨hBE, htail⟩
    · subst hE0
      subst hrs0
      exact .last B B hB1 (le_refl _)
    · exact .cons B B E rs2 hB1 (le_refl _) hBE htail
  constructor
  · exact pw
  · refine ⟨{ Begin := B, End := E }, rs2, hl, ?_, ?_⟩
    · show beginEventID stF = _
      rw [hl]
      rfl
    · intro x hx
      have hx' : inRanges stF x = true := hx
      rw [hl] at hx'
      exact hstB.lower_bound x hx'

/-- Witness for C1 (amended), on a two-call run that consumes events
`1`, `3` and then `2`. -/
theorem event_consumer_successful_delivery_unique_witness :
    (runConsumer [([1, 3], fun _ => true), ([2], fun _ => true)]
      (newEventConsumer 1)).1.Pairwise
      (fun a b => a.2 = true → a.1 ≠ b.1) ∧
    (∃ r rs, (runConsumer [([1, 3], fun _ => true), ([2], fun _ => true)]
      (newEventConsumer 1)).2 = r :: rs ∧
      beginEventID (runConsumer [([1, 3], fun _ => true),
        ([2], fun _ => true)] (newEventConsumer 1)).2 = r.Begin ∧
      (∀ x : Int,
        inRanges (runConsumer [([1, 3], fun _ => true),
          ([2], fun _ => true)] (newEventConsumer 1)).2 x = true →
        r.Begin ≤ x)) :=
  event_consumer_successful_delivery_unique
    [([1, 3], fun _ => true), ([2], fun _ => true)] 1 (by norm_num)

/-- Counterexample to claim C1 as stated: when `fn` fails on event `1`,
a later `ConsumeEvents` call delivers event `1` to `fn` again, so the
same event id reaches the callback twice. -/
theorem event_consumer_redelivery_after_fn_error :
    ((runConsumer [([1], fun _ => false), ([1], fun _ => true)]
      (newEventConsumer 1)).1.map Prod.fst) = [1, 1] ∧
    ¬ ((runConsumer [([1], fun _ => false), ([1], fun _ => true)]
      (newEventConsumer 1)).1.map Prod.fst).Nodup := by
  exact ⟨by decide, by decide⟩

theorem loadEvents_mem {store : List Int} {st : List EventRange} {e : Int} :
    e ∈ loadEvents store st ↔ e ∈ store ∧ inRanges st e = true := by
  unfold loadEvents
  rw [(List.perm_insertionSort (fun a b : Int => a ≤ b) _).mem_iff,
    List.mem_filter]

theorem loadEvents_chain {store : List Int} {st : List EventRange}
    (hnd : store.Nodup) : (loadEvents store st).Chain' (· < ·) := by
  rw [List.chain'_iff_pairwise]
  have hsorted : (loadEvents store st).Sorted (· ≤ ·) :=
    List.sorted_insertionSort _ _
  have hnd' : (loadEvents store st).Nodup :=
    ((List.perm_insertionSort (fun a b : Int => a ≤ b) _).nodup_iff).mpr
      (hnd.filter _)
  exact (hsorted.and hnd').imp (fun h => lt_of_le_of_ne h.1 h.2)

/-- `ConsumeEvents` with an always-succeeding callback delivers every
loaded event: with well-formed ranges, strictly sorted events all
lying in the unscanned ranges, the loop never hits the corruption
error and `fn` sees exactly the loaded sequence. -/
theorem consumeLoop_complete :
    ∀ (evs : List Int) (lo : Int) (passed rest : List EventRange),
      RangeInv lo (passed ++ rest) →
      evs.Chain' (· < ·) →
      (∀ e ∈ evs, inRanges rest e = true) →
      ∃ rgs, consumeLoop (fun _ => true) evs passed rest =
        (evs.map (fun e => (e, true)), rgs, .ok) := by
  intro evs
  induction evs with
  | nil =>
    intro lo passed rest hinv hchain hin
    exact ⟨passed ++ rest, by rw [consumeLoop]; rfl⟩
  | cons id evs ih =>
    intro lo passed rest hinv hchain hin
    have hidin : inRanges rest id = true := hin id (by simp)
    obtain ⟨p, r, rs, hskip⟩ := skipRanges_finds rest passed hidin
    have hcont := skipRanges_found rest passed p r rs hskip
    have happ := skipRanges_append rest passed p (r :: rs) hskip
    have hinv' : RangeInv lo (p ++ r :: rs) := by rw [happ]; exact hinv
    have hstep := step_preserves p lo r rs hinv' hcont
    have hrem := step_removes p rs r hinv' hcont
    have hlt : ∀ e ∈ evs, id < e := by
      have hpw := List.chain'_iff_pairwise.mp hchain
      intro e he
      exact (List.pairwise_cons.mp hpw).1 e he
    have hin' : ∀ e ∈ evs, inRanges (stepRange id r ++ rs) e = true := by
      intro e he
      have hne : e ≠ id := by
        have := hlt e he
        omega
      have hold : inRanges (p ++ r :: rs) e = true := by
        rw [happ, inRanges_append, Bool.or_eq_true]
        exact Or.inr (hin e (by simp [he]))
      have hnew : inRanges (p ++ (stepRange id r ++ rs)) e = true :=
        (hrem e).mpr ⟨hold, hne⟩
      rw [inRanges_append, Bool.or_eq_true] at hnew
      rcases hnew with hp | hgood
      · exfalso
        obtain ⟨m, hm1, hm2, hm3⟩ :=
          hinv'.append_mid p (r :: rs) rfl (by simp)
        have hmB : m ≤ r.Begin := by simpa using hm2.head_begin_ge
        obtain ⟨rp, hrp, hcx⟩ := inRanges_iff.mp hp
        obtain ⟨k1, k2, k3⟩ := hm3 rp hrp
        obtain ⟨ha, hb⟩ := containsId_iff.mp hcx
        have hBle : r.Begin ≤ id := (containsId_iff.mp hcont).1
        have hlt' := hlt e he
        rcases hb with hb | hb <;> omega
      · exact hgood
    obtain ⟨rgs, hrec⟩ :=
      ih lo p (stepRange id r ++ rs) hstep hchain.tail hin'
    refine ⟨rgs, ?_⟩
    rw [consumeLoop, hskip]
    dsimp only
    rw [if_pos rfl, hrec]
    rfl

/-- Amended claim C5: when `fn` fails, `ConsumeEvents` aborts with that
error; the delivery log ends at the failing event, whose id stays in
the ranges (the failing event's range is not advanced past it, though
the ranges of events already successfully delivered in the same call
are advanced — see the counterexample), so a later `ConsumeEvents`
call over the same store with a succeeding callback delivers the
failing event again. -/
theorem consume_events_fn_error_redelivers (store : List Int)
    (fn : Int → Bool) (lo : Int) (st : List EventRange)
    (ds : List (Int × Bool)) (st' : List EventRange)
    (hinv : RangeInv lo st) (hnd : store.Nodup)
    (heq : consumeEvents store fn st = (ds, st', .fnError)) :
    ∃ e ds₀, ds = ds₀ ++ [(e, false)] ∧ fn e = false ∧
      inRanges st' e = true ∧
      e ∈ (consumeEvents store (fun _ => true) st').1.map Prod.fst := by
  obtain ⟨hinv', hsub, hdel, hrem, hpw, hferr⟩ :=
    consumeEvents_spec store fn lo st ds st' .fnError hinv heq
  obtain ⟨e, ds₀, hds, hin, hfe⟩ := hferr rfl
  refine ⟨e, ds₀, hds, hfe, hin, ?_⟩
  have hestore : e ∈ store := by
    have hmem : (e, false) ∈ ds := by
      rw [hds]
      simp
    exact (hdel _ hmem).2.1
  obtain ⟨m, hm, hinvst'⟩ := hinv'
  obtain ⟨rgs, hrec⟩ := consumeLoop_complete (loadEvents store st') m []
    st' (by simpa using hinvst') (loadEvents_chain hnd)
    (fun x hx => (loadEvents_mem.mp hx).2)
  have hcall : consumeEvents store (fun _ => true) st' =
      ((loadEvents store st').map (fun e => (e, true)),
        removeEmptyRanges rgs, .ok) := by
    unfold consumeEvents
    rw [hrec]
  rw [hcall]
  simp only [List.map_map]
  have : (Prod.fst ∘ fun e : Int => (e, true)) = id := rfl
  rw [this, List.map_id]
  exact loadEvents_mem.mpr ⟨hestore, hin⟩

/-- Witness for C5 (amended): `fn` accepts event `1` and rejects
event `2`; the failing event `2` is redelivered by the next call. -/
theorem consume_events_fn_error_redelivers_witness :
    ∃ e ds₀,
      (consumeEvents [1, 2] (fun x : Int => x == 1)
        (newEventConsumer 1)).1 = ds₀ ++ [(e, false)] ∧
      (fun x : Int => x == 1) e = false ∧
      inRanges (consumeEvents [1, 2] (fun x : Int => x == 1)
        (newEventConsumer 1)).2.1 e = true ∧
      e ∈ (consumeEvents [1, 2] (fun _ => true)
        (consumeEvents [1, 2] (fun x : Int => x == 1)
          (newEventConsumer 1)).2.1).1.map Prod.fst :=
  consume_events_fn_error_redelivers [1, 2] (fun x : Int => x == 1) 1
    (newEventConsumer 1) _ _
    (RangeInv.last 1 1 (by norm_num) (le_refl 1)) (by decide) (by decide)

/-- Counterexample to claim C5 as stated: with events `1` and `2`
pending and `fn` succeeding on `1` but failing on `2`, the call
returns the callback error, yet the first range has been advanced
from `[1, ∞)` to `[2, ∞)` — a range did advance before the abort. -/
theorem consume_events_fn_error_advances_ranges :
    (consumeEvents [1, 2] (fun x : Int => x == 1)
      (newEventConsumer 1)).2.2 = .fnError ∧
    (consumeEvents [1, 2] (fun x : Int => x == 1)
      (newEventConsumer 1)).2.1 = [{ Begin := 2, End := 0 }] ∧
    (consumeEvents [1, 2] (fun x : Int => x == 1)
      (newEventConsumer 1)).2.1 ≠ newEventConsumer 1 := by
  exact ⟨by decide, by decide, by decide⟩

end Solve
